import Mathlib

/-!
Verification of the develevetor-server core against its design notes.

The development shallowly embeds the TypeScript sources:

* `src/services/indexer.service.ts` — the ingestion pipeline
  (`cloneRepo`, `readFiles`, `indexDocuments`, `processProject`);
* `src/api/projects/projects.controller.ts` — `syncProject`;
* `src/api/chat/chat.controller.ts` — `generateFileTree` and
  `chatWithProject`;
* `src/middlewares/rateLimit.middleware.ts` — `incrementUsage` call sites.

External I/O (Supabase, OpenAI, git, the filesystem) is modelled by
environments that fix each call's outcome; the controllers become pure
functions from an environment (and a starting store state) to a final
state plus an ordered event trace.  JavaScript strings are embedded as
Lean `String`s, with the JS comparison/`split`/`includes` operations
re-implemented structurally over `Char` lists so that every definition
is executable and kernel-reducible.
-/

/-! ## JS string primitives -/

/-- Lexicographic comparison of two character lists by code point, the order
JS `Array.prototype.sort()` applies to strings. -/
def clistLE : List Char → List Char → Bool
  | [], _ => true
  | _ :: _, [] => false
  | a :: as, b :: bs =>
    if a.toNat < b.toNat then true
    else if b.toNat < a.toNat then false
    else clistLE as bs

/-- JS default string order (`a <= b` under the default sort comparator). -/
def strLE (a b : String) : Prop := clistLE a.data b.data = true

instance : DecidableRel strLE := fun a b => by
  unfold strLE; infer_instance

/-- JS `s.includes(pat)`: `pat` occurs in `s` as a contiguous substring. -/
def containsSub (s pat : String) : Bool :=
  s.data.tails.any (fun t => pat.data.isPrefixOf t)

/-- JS `path.split(sep)` for a one-character separator, on character lists:
`"a/b"` ↦ `["a","b"]`, `"/a"` ↦ `["","a"]`, `"a//b"` ↦ `["a","","b"]`. -/
def splitCharsOn (sep : Char) : List Char → List (List Char)
  | [] => [[]]
  | c :: rest =>
    match splitCharsOn sep rest with
    | [] => [[c]]
    | cur :: done =>
      if c = sep then [] :: cur :: done else (c :: cur) :: done

/-- JS `path.split("/")` on strings. -/
def splitSlash (p : String) : List String :=
  (splitCharsOn '/' p.data).map (fun l => ⟨l⟩)

/-! ## The chunker (§4.2)

`IndexerService.indexDocuments` delegates splitting to
`RecursiveCharacterTextSplitter({ chunkSize: 1000, chunkOverlap: 200 })`,
whose implementation is not part of this repository's sources. -/

/-- Modelled from the spec: the splitter called by
`IndexerService.indexDocuments` (`RecursiveCharacterTextSplitter`, an
external library) is described in §4.2 as "fixed target chunk size
(characters) with a fixed overlap between consecutive chunks" and "pure
length-based splitting".  `chunkText c o s` emits windows of `c`
characters whose starts advance by `c - o`, the last window holding the
(at most `c`-character) remainder. -/
def chunkTextGo (fuel c o : Nat) (s : List Char) : List (List Char) :=
  match fuel with
  | 0 => [s]
  | fuel' + 1 =>
    if s.length ≤ c ∨ c ≤ o then [s]
    else s.take c :: chunkTextGo fuel' c o (s.drop (c - o))

/-- The window list itself; `s.length` is always enough fuel.  (The fuel only
makes the recursion structural, hence kernel-reducible.) -/
def chunkText (c o : Nat) (s : List Char) : List (List Char) :=
  chunkTextGo s.length c o s

/-- Reassemble chunks by keeping the first whole and dropping each later
chunk's `o`-character overlap: equality with the original text states that
the chunks cover every character, in order. -/
def overlapJoin (o : Nat) : List (List Char) → List Char
  | [] => []
  | chunk :: rest => chunk ++ (rest.map (List.drop o)).flatten

/-! ## The ingestion pipeline (`src/services/indexer.service.ts`)

The Supabase, OpenAI and filesystem calls are abstracted by `IndexerEnv`;
the store and disk are threaded explicitly through `ProjState`. -/

/-- A `(path, text)` pair as produced by `IndexerService.readFiles`. -/
structure SrcDoc where
  path : String
  content : List Char
deriving DecidableEq, Repr

/-- A row of the `documents` table as assembled by
`IndexerService.indexDocuments` (`project_id`, `content`, `metadata.path`,
`embedding`). -/
structure Row where
  projectId : String
  content : List Char
  path : String
  embedding : List Int
deriving DecidableEq, Repr

/-- Outcomes of the external calls one ingestion run performs:
`cloneOk` — whether `simpleGit().clone` succeeds; `readResult` — what
`readFiles` produces (or its failure); `embed` — the result of each
`embeddings.embedQuery` call, by chunk text (a `.error` models a thrown
exception); `insertOk` — whether a `supabase.from("documents").insert`
call reports an error (the client returns `{ error }`, it does not throw). -/
structure IndexerEnv where
  cloneOk : Bool
  readResult : Except Unit (List SrcDoc)
  embed : List Char → Except Unit (List Int)
  insertOk : List Row → Bool

/-- Store-and-disk state: the `documents` table, the processed project's
`status` and `last_indexed_at` fields, and the set of project ids with a
`temp_repos/<projectId>` snapshot on disk. -/
structure ProjState where
  db : List Row
  status : String
  lastIndexed : Bool
  disk : List String
deriving DecidableEq, Repr

/-- `splitter.createDocuments([doc.content], [{ path: doc.path }])`: the
chunks of one document, each carrying the originating path. -/
def splitDocument (doc : SrcDoc) : List SrcDoc :=
  (chunkText 1000 200 doc.content).map (fun cs => ⟨doc.path, cs⟩)

/-- The inner chunk loop of `indexDocuments`: embed each chunk in order and
assemble its row; a thrown embedding error aborts the whole list. -/
def rowsOfChunks (env : IndexerEnv) (pid : String) :
    List SrcDoc → Except Unit (List Row)
  | [] => .ok []
  | ch :: rest =>
    match env.embed ch.content with
    | .error e => .error e
    | .ok v =>
      match rowsOfChunks env pid rest with
      | .error e => .error e
      | .ok rs => .ok (⟨pid, ch.content, ch.path, v⟩ :: rs)

/-- The per-document loop of one batch: split each document, embed all its
chunks, and accumulate `insertData` across the batch. -/
def batchRows (env : IndexerEnv) (pid : String) :
    List SrcDoc → Except Unit (List Row)
  | [] => .ok []
  | d :: ds =>
    match rowsOfChunks env pid (splitDocument d) with
    | .error e => .error e
    | .ok rs =>
      match batchRows env pid ds with
      | .error e => .error e
      | .ok rest => .ok (rs ++ rest)

/-- `documents.slice(i, i + BATCH_SIZE)` for `i = 0, n, 2n, …`: the document
list cut into batches of `n` (the source fixes `BATCH_SIZE = 10`).  Fuel
keeps the recursion structural; `l.length` is always enough for `0 < n`. -/
def batchesGo {α : Type} (fuel n : Nat) (l : List α) : List (List α) :=
  match fuel, l with
  | _, [] => []
  | 0, l => [l]
  | f + 1, a :: as => ((a :: as).take n) :: batchesGo f n ((a :: as).drop n)

def batchesOf {α : Type} (n : Nat) (l : List α) : List (List α) :=
  batchesGo l.length n l

/-- The batch loop of `indexDocuments`: build one batch's rows (a thrown
embedding error propagates, aborting the loop), then bulk-insert them —
unless the batch is empty — ignoring (only logging) an insert error.
Returns the resulting `documents` table and the thrown error, if any. -/
def runBatches (env : IndexerEnv) (pid : String) :
    List (List SrcDoc) → List Row → List Row × Option Unit
  | [], db => (db, none)
  | b :: rest, db =>
    match batchRows env pid b with
    | .error e => (db, some e)
    | .ok rows =>
      let db' :=
        if rows.length > 0 then
          if env.insertOk rows then db ++ rows else db
        else db
      runBatches env pid rest db'

/-- `IndexerService.indexDocuments`. -/
def indexDocuments (env : IndexerEnv) (pid : String) (docs : List SrcDoc)
    (db : List Row) : List Row × Option Unit :=
  runBatches env pid (batchesOf 10 docs) db

/-- `fs.remove(repoPath)` — drop the `temp_repos/<pid>` snapshot. -/
def rmSnap (pid : String) (disk : List String) : List String :=
  disk.filter (fun q => q ≠ pid)

/-- `IndexerService.cloneRepo`: remove any previous `temp_repos/<pid>`
snapshot, then shallow-clone into it.  Returns the disk state and whether
the clone succeeded (a failed clone acquires no snapshot). -/
def cloneRepo (env : IndexerEnv) (pid : String) (disk : List String) :
    List String × Bool :=
  let disk1 := rmSnap pid disk
  if env.cloneOk then (disk1 ++ [pid], true) else (disk1, false)

/-- `IndexerService.processProject`: clone → read → index → remove the
snapshot → status `READY`; any thrown step lands in the `catch`, which only
sets status `ERROR` (it neither deletes rows nor removes the snapshot). -/
def processProject (env : IndexerEnv) (pid : String) (st : ProjState) :
    ProjState :=
  let res := cloneRepo env pid st.disk
  if res.2 = false then
    { st with disk := res.1, status := "ERROR" }
  else
    match env.readResult with
    | .error _ => { st with disk := res.1, status := "ERROR" }
    | .ok docs =>
      let indexed := indexDocuments env pid docs st.db
      match indexed.2 with
      | some _ =>
        { db := indexed.1, status := "ERROR", lastIndexed := st.lastIndexed,
          disk := res.1 }
      | none =>
        { db := indexed.1, status := "READY", lastIndexed := true,
          disk := rmSnap pid res.1 }

/-! ## `syncProject` (`src/api/projects/projects.controller.ts`) -/

/-- The observable steps of one `syncProject` request, in program order. -/
inductive SyncEvent where
  | verifyOwner
  | respond404
  | wipeDocs (pid : String)
  | setIndexing (pid : String)
  | respondOk
  | fetchToken
  | runIngestion (pid : String)
deriving DecidableEq, Repr

/-- The two store lookups `syncProject` makes before and after responding:
the ownership-checked project row (`none` models `.single()` finding no row
for this id/user pair) and the caller's GitHub token. -/
structure SyncEnv where
  ownerProject : Option String
  githubToken : Option String

/-- `supabase.from("documents").delete().eq("project_id", id)` — the rows
that survive wiping project `pid`. -/
def wipeProjectRows (pid : String) (db : List Row) : List Row :=
  db.filter (fun r => r.projectId ≠ pid)

/-- `syncProject`: verify ownership; wipe the project's `documents` rows;
set status `INDEXING` (with a fresh `last_indexed_at`); respond; fetch the
token and — when one exists — run `processProject` (fire-and-forget in the
source, sequenced after the response here, as §5 of the spec describes). -/
def syncProject (env : SyncEnv) (ienv : IndexerEnv) (pid : String)
    (st : ProjState) : List SyncEvent × ProjState :=
  match env.ownerProject with
  | none => ([SyncEvent.verifyOwner, SyncEvent.respond404], st)
  | some _ =>
    let st1 : ProjState := { st with db := wipeProjectRows pid st.db }
    let st2 : ProjState := { st1 with status := "INDEXING", lastIndexed := true }
    match env.githubToken with
    | none =>
      ([SyncEvent.verifyOwner, SyncEvent.wipeDocs pid, SyncEvent.setIndexing pid,
        SyncEvent.respondOk, SyncEvent.fetchToken], st2)
    | some _ =>
      ([SyncEvent.verifyOwner, SyncEvent.wipeDocs pid, SyncEvent.setIndexing pid,
        SyncEvent.respondOk, SyncEvent.fetchToken, SyncEvent.runIngestion pid],
       processProject ienv pid st2)

/-! ## The file tree (`generateFileTree`, `src/api/chat/chat.controller.ts`)

The JS helper builds a nested plain object keyed by path segments, then
renders it, sorting `Object.keys(node)` at every level.  The object is
embedded as an association list in insertion order (`FTree`); the per-level
`Object.keys(node).sort()` of the renderer is embedded by sorting every
level up front (`canonTree`) and then walking children in list order. -/

inductive FTree where
  | node : List (String × FTree) → FTree

def FTree.children : FTree → List (String × FTree)
  | .node cs => cs

/-- `current[part]` — JS object property lookup. -/
def findChild : List (String × FTree) → String → Option FTree
  | [], _ => none
  | (k, t) :: rest, key => if k = key then some t else findChild rest key

/-- `current[part] = value` — JS object property write: an existing key keeps
its position, a new key is appended (JS insertion order). -/
def setChild : List (String × FTree) → String → FTree → List (String × FTree)
  | [], key, v => [(key, v)]
  | (k, t) :: rest, key, v =>
    if k = key then (key, v) :: rest else (k, t) :: setChild rest key v

/-- One `paths.forEach` iteration: walk the parts, creating `{}` nodes for
missing segments (`if (!current[part]) current[part] = {}`). -/
def insertParts : FTree → List String → FTree
  | t, [] => t
  | .node cs, p :: ps =>
    let sub := (findChild cs p).getD (.node [])
    .node (setChild cs p (insertParts sub ps))

/-- Step 1 of `generateFileTree`: build the nested object from the paths. -/
def buildTree (paths : List String) : FTree :=
  paths.foldl (fun t p => insertParts t (splitSlash p)) (.node [])

/-- The key order of `Object.keys(node).sort()` on sibling pairs. -/
def pairLE (a b : String × FTree) : Prop := strLE a.1 b.1

instance : DecidableRel pairLE := fun a b => by
  unfold pairLE; infer_instance

/-- `Object.keys(node).sort()` applied to one children list. -/
def sortPairs (cs : List (String × FTree)) : List (String × FTree) :=
  List.insertionSort pairLE cs

mutual
/-- Sort every level's children into JS `sort()` order, so that the renderer
below can walk children in list order. -/
def canonTree : FTree → FTree
  | .node cs => .node (sortPairs (canonChildren cs))
def canonChildren : List (String × FTree) → List (String × FTree)
  | [] => []
  | (k, t) :: rest => (k, canonTree t) :: canonChildren rest
end

mutual
/-- Step 2 of `generateFileTree` (`buildString`), on a tree whose levels are
already in `Object.keys(...).sort()` order. -/
def buildString : FTree → String → String
  | .node cs, pre => renderKeys cs cs.length 0 pre
/-- The `keys.forEach((key, index) => …)` body: `isLast` is
`index === keys.length - 1`; a leaf (`Object.keys(node[key]).length === 0`)
prints no subtree. -/
def renderKeys : List (String × FTree) → Nat → Nat → String → String
  | [], _, _, _ => ""
  | (k, t) :: rest, n, i, pre =>
    let connector := if i = n - 1 then "└── " else "├── "
    let childPre := if i = n - 1 then "    " else "│   "
    pre ++ connector ++ k ++ "\n" ++
      (if t.children.isEmpty then "" else buildString t (pre ++ childPre)) ++
      renderKeys rest n (i + 1) pre
end

/-- `generateFileTree` of `src/api/chat/chat.controller.ts`. -/
def generateFileTree (paths : List String) : String :=
  buildString (canonTree (buildTree paths)) ""

/-! ## `chatWithProject` (`src/api/chat/chat.controller.ts`) -/

/-- A row of the retrieval context: `{ content, metadata: { path } }`. -/
structure Doc where
  path : String
  content : String
deriving DecidableEq, Repr

/-- The observable effects of one chat request, in program order. -/
inductive ChatEvent where
  | incrementCall (userId : String)
  | insertUserMsg (projectId content : String)
  | sendHeaders (sources : List String)
  | writeDelta (text : String)
  | insertAssistantMsg (projectId content : String) (sources : List String)
  | endResponse
  | respond500
deriving DecidableEq, Repr

def ChatEvent.isAssistantInsert : ChatEvent → Bool
  | .insertAssistantMsg _ _ _ => true
  | _ => false

/-- One chat request's inputs and the outcome of each external call:
`incrementOk` — whether `incrementUsage` resolves (a `false` models a
thrown error); `indexedPaths` — the `documents` path query's result;
`fetchDocs` — the `.in("metadata->>path", targetPaths)` lookup; `embedOk`
— whether the question-embedding call resolves; `vectorDocs` — the
`match_documents` similarity hits; `streamDeltas`/`streamErr` — the text
deltas the generation stream yields, and whether it then raises instead of
ending normally. -/
structure ChatEnv where
  userId : Option String
  incrementOk : Bool
  projectId : String
  message : String
  selectedFiles : List String
  indexedPaths : List String
  fetchDocs : List String → List Doc
  embedOk : Bool
  vectorDocs : List Doc
  streamDeltas : List String
  streamErr : Bool

structure ChatOutcome where
  events : List ChatEvent
  fileStructure : Option String
deriving Repr

/-- `[...new Set(l)]` — JS `Set` deduplication, keeping first occurrences. -/
def dedupFirstGo (seen : List String) : List String → List String
  | [] => []
  | a :: as =>
    if a ∈ seen then dedupFirstGo seen as
    else a :: dedupFirstGo (a :: seen) as

def dedupFirst (l : List String) : List String := dedupFirstGo [] l

/-- The hard-coded `corePatterns` of `chatWithProject`. -/
def corePatterns : List String :=
  ["package.json", "tsconfig.json", "src/index", "src/App", "src/main",
   "server.ts", "main.go"]

/-- Step B of `chatWithProject`: explicit selection, then — if fewer than 3
paths were selected — up to 3 "core file" fuzzy matches, then `Set` dedup. -/
def resolveTargetPaths (env : ChatEnv) : List String :=
  let targets0 := env.selectedFiles
  let targets1 :=
    if targets0.length < 3 then
      targets0 ++
        (env.indexedPaths.filter
          (fun p => corePatterns.any (fun core => containsSub p core))).take 3
    else targets0
  dedupFirst targets1

/-- `uniqueDocsMap.set(doc.metadata.path, doc)` — a JS `Map` write: an
existing key keeps its insertion position but takes the new value; a new
key is appended. -/
def docsSet (m : List Doc) (d : Doc) : List Doc :=
  if m.any (fun e => e.path = d.path) then
    m.map (fun e => if e.path = d.path then d else e)
  else m ++ [d]

/-- Step D of `chatWithProject`: `allDocs.forEach((doc) =>
uniqueDocsMap.set(doc.metadata.path, doc))`, then `values()` in insertion
order. -/
def uniqueDocsOf (allDocs : List Doc) : List Doc := allDocs.foldl docsSet []

/-- Step B's fetch: the explicit/core documents, looked up by exact
metadata path match (no lookup when there is no target path). -/
def explicitDocsOf (env : ChatEnv) : List Doc :=
  if (resolveTargetPaths env).length > 0 then
    env.fetchDocs (resolveTargetPaths env)
  else []

/-- Steps B–D combined: the deduplicated context document list
(`uniqueDocs`) for one request. -/
def resolveContextDocs (env : ChatEnv) : List Doc :=
  uniqueDocsOf (explicitDocsOf env ++ env.vectorDocs)

/-- The provenance path list (`sources`) of one request. -/
def chatSources (env : ChatEnv) : List String :=
  (resolveContextDocs env).map Doc.path

/-- `chatWithProject`: increment usage; persist the user message; fetch the
path map and render the tree (or the `"(No files found)"` marker); resolve
and fetch the context; embed the question and run the similarity search;
send headers; stream the answer forwarding each non-empty delta; then
persist one assistant message — the `catch` responds 500 when headers are
unsent and otherwise just ends the response. -/
def chatWithProject (env : ChatEnv) : ChatOutcome :=
  let ev0 : List ChatEvent :=
    match env.userId with
    | some uid => [ChatEvent.incrementCall uid]
    | none => []
  if env.userId.isSome && !env.incrementOk then
    { events := ev0 ++ [ChatEvent.respond500], fileStructure := none }
  else
    let ev1 := ev0 ++ [ChatEvent.insertUserMsg env.projectId env.message]
    let allPaths := env.indexedPaths
    let fileStructure :=
      if allPaths.length > 0 then generateFileTree allPaths
      else "(No files found)"
    if !env.embedOk then
      { events := ev1 ++ [ChatEvent.respond500], fileStructure := none }
    else
      let uniqueDocs := resolveContextDocs env
      let sources := uniqueDocs.map Doc.path
      let ev2 := ev1 ++ [ChatEvent.sendHeaders sources]
      let forwarded := env.streamDeltas.filter (fun t => t ≠ "")
      let ev3 := ev2 ++ forwarded.map ChatEvent.writeDelta
      if env.streamErr then
        { events := ev3 ++ [ChatEvent.endResponse],
          fileStructure := some fileStructure }
      else
        { events := ev3 ++
            [ChatEvent.insertAssistantMsg env.projectId (String.join forwarded)
              sources,
             ChatEvent.endResponse],
          fileStructure := some fileStructure }

/-! ## Statement-level helper definitions -/

/-- Whether one ingestion run throws (clone failure, read failure, or an
embedding error inside `indexDocuments`) — the condition under which
`processProject` lands in its `catch` block. -/
def runThrows (env : IndexerEnv) (pid : String) (db : List Row) : Bool :=
  !env.cloneOk ||
    (match env.readResult with
     | .error _ => true
     | .ok docs => (indexDocuments env pid docs db).2.isSome)

/-- The rows a full (no-throw) run keeps: batch by batch, a non-empty batch
whose insert succeeds contributes its rows; a batch whose insert fails
contributes nothing. -/
def keptRows (env : IndexerEnv) (pid : String) :
    List (List SrcDoc) → List Row
  | [] => []
  | b :: rest =>
    (match batchRows env pid b with
     | .error _ => []
     | .ok rows =>
       if rows.length > 0 then
         if env.insertOk rows then rows else []
       else []) ++ keptRows env pid rest

/-- The rows a run has inserted up to (not including) the first batch whose
embedding calls throw: batch by batch, a non-empty batch whose insert
succeeds contributes its rows, a batch whose insert fails contributes
nothing, and the first thrown batch stops the loop. -/
def keptRowsUntil (env : IndexerEnv) (pid : String) :
    List (List SrcDoc) → List Row
  | [] => []
  | b :: rest =>
    match batchRows env pid b with
    | .error _ => []
    | .ok rows =>
      (if rows.length > 0 then
        if env.insertOk rows then rows else []
       else []) ++ keptRowsUntil env pid rest

/-- All rows one `processProject` run inserts into the `documents` table,
as a function of the environment alone: nothing when the clone or the read
fails, otherwise the kept rows up to the first thrown batch (everything,
when no batch throws). -/
def insertedRows (env : IndexerEnv) (pid : String) : List Row :=
  match env.readResult with
  | .error _ => []
  | .ok docs =>
    if env.cloneOk then keptRowsUntil env pid (batchesOf 10 docs) else []

/-- The last document of `l` carrying path `p`, if any — what a
last-seen-wins dedup keeps for `p`. -/
def lastWith (p : String) (l : List Doc) : Option Doc :=
  (l.filter (fun d => d.path = p)).getLast?

/-- The keys of one children list. -/
def keysOf (cs : List (String × FTree)) : List String := cs.map Prod.fst

/-- No two siblings share a name — true of every tree `buildTree` builds
(a JS object cannot have a duplicate key). -/
def NodupKeys (cs : List (String × FTree)) : Prop := (keysOf cs).Nodup

/-- Trees with `NodupKeys` at every level. -/
inductive TreeWF : FTree → Prop where
  | node : ∀ {cs}, NodupKeys cs → (∀ p ∈ cs, TreeWF p.2) → TreeWF (.node cs)

/-- Trees whose every level is in `Object.keys(...).sort()` order (sorted by
the JS comparator, sibling names distinct). -/
inductive Canonical : FTree → Prop where
  | node : ∀ {cs}, List.Sorted pairLE cs → NodupKeys cs →
      (∀ p ∈ cs, Canonical p.2) → Canonical (.node cs)

/-- Insert into a children list that is already in sorted order, replacing
an existing key in place and otherwise splicing at the sorted position. -/
def sortedSet : List (String × FTree) → String → FTree → List (String × FTree)
  | [], key, v => [(key, v)]
  | (k, t) :: rest, key, v =>
    if k = key then (key, v) :: rest
    else if strLE key k then (key, v) :: (k, t) :: rest
    else (k, t) :: sortedSet rest key v

/-- `insertParts` acting on canonical trees: the sorted-order counterpart
through which `canonTree ∘ insertParts` factors. -/
def sInsert : FTree → List String → FTree
  | t, [] => t
  | .node cs, p :: ps =>
    let sub := (findChild cs p).getD (.node [])
    .node (sortedSet cs p (sInsert sub ps))

mutual
/-- The renderer re-stated in the words of the design note: children in
sorted order, every non-last child printed with the `├── ` connector and
`│   ` indent, the last child with `└── ` and `    `. -/
def buildStringLast : FTree → String → String
  | .node cs, pre => renderLast cs pre
def renderLast : List (String × FTree) → String → String
  | [], _ => ""
  | [(k, t)], pre =>
    pre ++ "└── " ++ k ++ "\n" ++
      (if t.children.isEmpty then "" else buildStringLast t (pre ++ "    "))
  | (k, t) :: (k2, t2) :: rest, pre =>
    pre ++ "├── " ++ k ++ "\n" ++
      (if t.children.isEmpty then "" else buildStringLast t (pre ++ "│   ")) ++
      renderLast ((k2, t2) :: rest) pre
end

/-! ## Concrete scenarios for witnesses and counterexamples -/

/-- A chat request whose generation stream yields `"a"`, `"b"`, `"c"` and
then raises (anonymous caller, empty index). -/
def chatEnvStreamErr : ChatEnv :=
  { userId := none, incrementOk := true, projectId := "P", message := "m",
    selectedFiles := [], indexedPaths := [], fetchDocs := fun _ => [],
    embedOk := true, vectorDocs := [], streamDeltas := ["a", "b", "c"],
    streamErr := true }

/-- The same request with a stream that ends normally. -/
def chatEnvStreamOk : ChatEnv :=
  { userId := none, incrementOk := true, projectId := "P", message := "m",
    selectedFiles := [], indexedPaths := [], fetchDocs := fun _ => [],
    embedOk := true, vectorDocs := [], streamDeltas := ["a", "b", "c"],
    streamErr := false }

/-- A chat request against a project with zero indexed paths whose stream
ends normally. -/
def chatEnvNoFiles : ChatEnv :=
  { userId := some "u9", incrementOk := true, projectId := "P9",
    message := "q", selectedFiles := [], indexedPaths := [],
    fetchDocs := fun _ => [], embedOk := true, vectorDocs := [],
    streamDeltas := ["ans"], streamErr := false }

/-- An authenticated chat request whose embedding call fails. -/
def chatEnvAuthFail : ChatEnv :=
  { userId := some "u10", incrementOk := true, projectId := "P10",
    message := "q", selectedFiles := [], indexedPaths := [],
    fetchDocs := fun _ => [], embedOk := false, vectorDocs := [],
    streamDeltas := [], streamErr := false }

/-- Eleven one-character documents: two batches of 10 and 1. -/
def docsTwoBatches : List SrcDoc :=
  ⟨"f0", ['a']⟩ :: List.replicate 9 ⟨"fb", ['b']⟩ ++ [⟨"f10", ['k']⟩]

/-- An ingestion run whose very first chunk's embedding call throws
(every other chunk would embed fine, and every insert would succeed). -/
def envEmbedFail : IndexerEnv :=
  { cloneOk := true, readResult := .ok docsTwoBatches,
    embed := fun cs => if cs = ['a'] then .error () else .ok [1],
    insertOk := fun _ => true }

/-- An ingestion run where every embedding succeeds but the first batch's
bulk insert reports an error (the second batch, one row, succeeds). -/
def envInsertFail : IndexerEnv :=
  { cloneOk := true, readResult := .ok docsTwoBatches,
    embed := fun _ => .ok [2], insertOk := fun rows => rows.length = 1 }

/-- An ingestion run that clones fine and then fails reading files. -/
def envReadFail : IndexerEnv :=
  { cloneOk := true, readResult := .error (), embed := fun _ => .ok [],
    insertOk := fun _ => true }

/-- Eleven documents whose eleventh (the whole second batch) has the one
content whose embedding call throws. -/
def docsLateEmbedFail : List SrcDoc :=
  List.replicate 10 ⟨"fa", ['a']⟩ ++ [⟨"fz", ['z']⟩]

/-- An ingestion run where the first batch embeds and bulk-inserts fine
(ten rows) and the second batch's embedding call throws. -/
def envLateEmbedFail : IndexerEnv :=
  { cloneOk := true, readResult := .ok docsLateEmbedFail,
    embed := fun cs => if cs = ['z'] then .error () else .ok [3],
    insertOk := fun _ => true }

/-- A fresh store state with an empty `documents` table and empty disk. -/
def stEmpty : ProjState :=
  { db := [], status := "INDEXING", lastIndexed := false, disk := [] }


/-! # Theorems -/

/-! ## Chunker lemmas and C4 -/

theorem chunkTextGo_congr {c o : Nat} :
    ∀ {f₁ f₂ : Nat} {s : List Char}, s.length ≤ f₁ → s.length ≤ f₂ →
      chunkTextGo f₁ c o s = chunkTextGo f₂ c o s := by
  intro f₁
  induction f₁ with
  | zero =>
    intro f₂ s h₁ h₂
    have : s = [] := List.eq_nil_of_length_eq_zero (Nat.le_zero.mp h₁)
    subst this
    cases f₂ <;> simp [chunkTextGo]
  | succ f₁ ih =>
    intro f₂ s h₁ h₂
    cases f₂ with
    | zero =>
      have : s = [] := List.eq_nil_of_length_eq_zero (Nat.le_zero.mp h₂)
      subst this
      simp [chunkTextGo]
    | succ f₂ =>
      show chunkTextGo (f₁ + 1) c o s = chunkTextGo (f₂ + 1) c o s
      simp only [chunkTextGo]
      by_cases hc : s.length ≤ c ∨ c ≤ o
      · rw [if_pos hc, if_pos hc]
      · have hlt : c < s.length ∧ o < c := by
          push_neg at hc
          exact hc
        rw [if_neg hc, if_neg hc]
        congr 1
        exact ih (by simp only [List.length_drop]; omega)
          (by simp only [List.length_drop]; omega)

theorem chunkText_of_le {c o : Nat} {s : List Char} (h : s.length ≤ c) :
    chunkText c o s = [s] := by
  unfold chunkText
  cases hn : s.length with
  | zero => simp [chunkTextGo]
  | succ n => simp [chunkTextGo, h]

theorem chunkText_of_lt {c o : Nat} {s : List Char} (ho : o < c)
    (h : c < s.length) :
    chunkText c o s = s.take c :: chunkText c o (s.drop (c - o)) := by
  unfold chunkText
  obtain ⟨n, hn⟩ : ∃ n, s.length = n + 1 := ⟨s.length - 1, by omega⟩
  rw [hn]
  simp only [chunkTextGo]
  rw [if_neg (by push_neg; omega)]
  congr 1
  exact chunkTextGo_congr (by simp only [List.length_drop]; omega)
    (by simp only [List.length_drop]; omega)

theorem chunkText_head {c o : Nat} (ho : o < c) (s : List Char) :
    ∃ tl, chunkText c o s = s.take c :: tl := by
  rcases le_or_lt s.length c with h | h
  · exact ⟨[], by rw [chunkText_of_le h, List.take_of_length_le h]⟩
  · exact ⟨_, chunkText_of_lt ho h⟩

theorem chunkText_flatten_drop {c o : Nat} (ho : o < c) (s : List Char) :
    ((chunkText c o s).map (List.drop o)).flatten = s.drop o := by
  rcases le_or_lt s.length c with h | h
  · rw [chunkText_of_le h]; simp
  · rw [chunkText_of_lt ho h]
    have ih := chunkText_flatten_drop ho (s.drop (c - o))
    simp only [List.map_cons, List.flatten_cons, ih]
    have h1 : (s.take c).drop o = (s.drop o).take (c - o) := List.drop_take ..
    have h2 : (s.drop (c - o)).drop o = (s.drop o).drop (c - o) := by
      rw [List.drop_drop, List.drop_drop]
      congr 1
      omega
    rw [h1, h2, List.take_append_drop]
termination_by s.length
decreasing_by
  simp only [List.length_drop]
  omega

theorem chunkText_cover {c o : Nat} (ho : o < c) (s : List Char) :
    overlapJoin o (chunkText c o s) = s := by
  rcases le_or_lt s.length c with h | h
  · rw [chunkText_of_le h]; simp [overlapJoin]
  · rw [chunkText_of_lt ho h]
    show s.take c ++ ((chunkText c o (s.drop (c - o))).map (List.drop o)).flatten = s
    rw [chunkText_flatten_drop ho, List.drop_drop]
    have hco : c - o + o = c := by omega
    rw [hco, List.take_append_drop]

theorem chunkText_adjacent {c o : Nat} (ho : o < c) (s : List Char) :
    ∀ pr ∈ (chunkText c o s).zip (chunkText c o s).tail,
      pr.1.length = c ∧ pr.1.drop (c - o) = pr.2.take o ∧
        (pr.2.take o).length = o := by
  rcases le_or_lt s.length c with h | h
  · rw [chunkText_of_le h]; simp
  · rw [chunkText_of_lt ho h]
    obtain ⟨tl, htl⟩ := chunkText_head ho (s.drop (c - o))
    rw [htl]
    intro pr hpr
    simp only [List.tail_cons, List.zip_cons_cons, List.mem_cons] at hpr
    rcases hpr with hpr | hpr
    · subst hpr
      refine ⟨by simp [List.length_take]; omega, ?_, ?_⟩
      · rw [List.drop_take, List.take_take]
        congr 1
        omega
      · simp only [List.length_take, List.length_drop]
        omega
    · have := chunkText_adjacent ho (s.drop (c - o))
      rw [htl] at this
      exact this pr hpr
termination_by s.length
decreasing_by
  simp only [List.length_drop]
  omega

/-- C4 (spec-modelled chunker): for every document, with chunk size 1000 and
overlap 200 as configured in `IndexerService.indexDocuments`, (i) the chunks
cover every character of the original text in order (reassembling the first
chunk with each later chunk's tail past the 200-character overlap restores
the text), (ii) each non-final chunk is full (1000 characters) and shares
exactly its last 200 characters with the next chunk's first 200, and (iii) a
document of at most 1000 characters yields exactly one chunk. -/
theorem chunker_coverage :
    ∀ s : List Char,
      overlapJoin 200 (chunkText 1000 200 s) = s
      ∧ (∀ pr ∈ (chunkText 1000 200 s).zip (chunkText 1000 200 s).tail,
          pr.1.length = 1000 ∧ pr.1.drop 800 = pr.2.take 200
            ∧ (pr.2.take 200).length = 200)
      ∧ (s.length ≤ 1000 → chunkText 1000 200 s = [s]) := by
  intro s
  refine ⟨chunkText_cover (by omega) s, ?_, fun h => chunkText_of_le h⟩
  have h := chunkText_adjacent (show 200 < 1000 by omega) s
  have h8 : (1000 : Nat) - 200 = 800 := by norm_num
  rw [h8] at h
  exact h

/-! ## Ingestion-run lemmas (C3, C6, C7) -/

theorem rowsOfChunks_pid (env : IndexerEnv) (pid : String) :
    ∀ chs rs, rowsOfChunks env pid chs = .ok rs →
      ∀ r ∈ rs, r.projectId = pid := by
  intro chs
  induction chs with
  | nil =>
    intro rs h
    simp only [rowsOfChunks, Except.ok.injEq] at h
    subst h
    simp
  | cons ch rest ih =>
    intro rs h
    simp only [rowsOfChunks] at h
    cases hv : env.embed ch.content with
    | error e => rw [hv] at h; cases h
    | ok v =>
      rw [hv] at h
      cases hr : rowsOfChunks env pid rest with
      | error e => rw [hr] at h; cases h
      | ok rs' =>
        rw [hr] at h
        simp only [Except.ok.injEq] at h
        subst h
        intro r hrmem
        rcases List.mem_cons.mp hrmem with hr1 | hr2
        · subst hr1; rfl
        · exact ih rs' hr r hr2

theorem batchRows_pid (env : IndexerEnv) (pid : String) :
    ∀ b rows, batchRows env pid b = .ok rows →
      ∀ r ∈ rows, r.projectId = pid := by
  intro b
  induction b with
  | nil =>
    intro rows h
    simp only [batchRows, Except.ok.injEq] at h
    subst h
    simp
  | cons d ds ih =>
    intro rows h
    simp only [batchRows] at h
    cases h1 : rowsOfChunks env pid (splitDocument d) with
    | error e => rw [h1] at h; cases h
    | ok rs =>
      rw [h1] at h
      cases h2 : batchRows env pid ds with
      | error e => rw [h2] at h; cases h
      | ok rest =>
        rw [h2] at h
        simp only [Except.ok.injEq] at h
        subst h
        intro r hrmem
        rcases List.mem_append.mp hrmem with hm | hm
        · exact rowsOfChunks_pid env pid _ rs h1 r hm
        · exact ih rest h2 r hm

theorem runBatches_app (env : IndexerEnv) (pid : String) :
    ∀ bs db, ∃ new, (runBatches env pid bs db).1 = db ++ new ∧
      ∀ r ∈ new, r.projectId = pid := by
  intro bs
  induction bs with
  | nil => intro db; exact ⟨[], by simp [runBatches]⟩
  | cons b rest ih =>
    intro db
    cases hb : batchRows env pid b with
    | error e => exact ⟨[], by simp [runBatches, hb]⟩
    | ok rows =>
      by_cases hlen : rows.length > 0
      · by_cases hins : env.insertOk rows = true
        · obtain ⟨new, h1, h2⟩ := ih (db ++ rows)
          refine ⟨rows ++ new, ?_, ?_⟩
          · simp only [runBatches, hb, if_pos hlen, if_pos hins]
            rw [h1, List.append_assoc]
          · intro r hr
            rcases List.mem_append.mp hr with hm | hm
            · exact batchRows_pid env pid b rows hb r hm
            · exact h2 r hm
        · obtain ⟨new, h1, h2⟩ := ih db
          refine ⟨new, ?_, h2⟩
          simp only [runBatches, hb, if_pos hlen]
          rw [if_neg hins]
          exact h1
      · obtain ⟨new, h1, h2⟩ := ih db
        refine ⟨new, ?_, h2⟩
        simp only [runBatches, hb, if_neg hlen]
        exact h1

theorem processProject_db (env : IndexerEnv) (pid : String) (st : ProjState) :
    ∃ new, (processProject env pid st).db = st.db ++ new ∧
      ∀ r ∈ new, r.projectId = pid := by
  unfold processProject
  cases hc : env.cloneOk with
  | false => exact ⟨[], by simp [cloneRepo, hc]⟩
  | true =>
    simp only [cloneRepo, hc]
    cases hr : env.readResult with
    | error e => exact ⟨[], by simp⟩
    | ok docs =>
      obtain ⟨new, h1, h2⟩ := runBatches_app env pid (batchesOf 10 docs) st.db
      cases hidx : (indexDocuments env pid docs st.db).2 with
      | none =>
        refine ⟨new, ?_, h2⟩
        simp only [hidx]
        exact h1
      | some e =>
        refine ⟨new, ?_, h2⟩
        simp only [hidx]
        exact h1

/-- `runBatches` always leaves the table equal to the starting table plus
exactly the kept rows up to the first thrown batch: nothing is ever
removed, whether the loop finishes or throws. -/
theorem runBatches_db_eq (env : IndexerEnv) (pid : String) :
    ∀ bs db, (runBatches env pid bs db).1 =
      db ++ keptRowsUntil env pid bs := by
  intro bs
  induction bs with
  | nil => intro db; simp [runBatches, keptRowsUntil]
  | cons b rest ih =>
    intro db
    cases hb : batchRows env pid b with
    | error e => simp [runBatches, keptRowsUntil, hb]
    | ok rows =>
      by_cases hlen : rows.length > 0
      · by_cases hins : env.insertOk rows = true
        · simp only [runBatches, keptRowsUntil, hb, if_pos hlen, if_pos hins,
            ih, List.append_assoc]
        · simp only [runBatches, keptRowsUntil, hb, if_pos hlen, if_neg hins,
            ih]
          simp
      · simp only [runBatches, keptRowsUntil, hb, if_neg hlen, ih]
        simp

theorem keptRowsUntil_pid (env : IndexerEnv) (pid : String) :
    ∀ bs, ∀ r ∈ keptRowsUntil env pid bs, r.projectId = pid := by
  intro bs
  induction bs with
  | nil => intro r hr; cases hr
  | cons b rest ih =>
    intro r hr
    cases hb : batchRows env pid b with
    | error e => rw [keptRowsUntil, hb] at hr; cases hr
    | ok rows =>
      rw [keptRowsUntil, hb] at hr
      rcases List.mem_append.mp hr with hm | hm
      · by_cases hlen : rows.length > 0
        · by_cases hins : env.insertOk rows = true
          · rw [if_pos hlen, if_pos hins] at hm
            exact batchRows_pid env pid b rows hb r hm
          · rw [if_pos hlen, if_neg hins] at hm
            cases hm
        · rw [if_neg hlen] at hm
          cases hm
      · exact ih r hm

theorem insertedRows_pid (env : IndexerEnv) (pid : String) :
    ∀ r ∈ insertedRows env pid, r.projectId = pid := by
  intro r hr
  unfold insertedRows at hr
  cases hread : env.readResult with
  | error e => simp only [hread] at hr; cases hr
  | ok docs =>
    simp only [hread] at hr
    by_cases hc : env.cloneOk = true
    · rw [if_pos hc] at hr
      exact keptRowsUntil_pid env pid _ r hr
    · rw [if_neg hc] at hr
      cases hr

/-- C6: whenever a step of an ingestion run throws (clone, read, or an
embedding call), `processProject`'s catch sets the project's status to
`ERROR` and changes nothing else: the final `documents` table is *exactly*
the starting table followed by the rows the run had inserted before the
throw (`insertedRows`, all carrying this project's id) — pre-existing rows
and the run's own partial inserts both survive; nothing is deleted or
rolled back on the failure path. -/
theorem processProject_error_no_rollback (env : IndexerEnv) (pid : String)
    (st : ProjState) (h : runThrows env pid st.db = true) :
    (processProject env pid st).status = "ERROR" ∧
      (processProject env pid st).db = st.db ++ insertedRows env pid ∧
      ∀ r ∈ insertedRows env pid, r.projectId = pid := by
  refine ⟨?_, ?_, insertedRows_pid env pid⟩
  · unfold runThrows at h
    unfold processProject
    cases hc : env.cloneOk with
    | false => simp [cloneRepo, hc]
    | true =>
      rw [hc] at h
      simp only [Bool.not_true, Bool.false_or] at h
      simp only [cloneRepo, hc]
      cases hr : env.readResult with
      | error e => simp
      | ok docs =>
        rw [hr] at h
        cases hidx : (indexDocuments env pid docs st.db).2 with
        | none => simp [hidx] at h
        | some e => simp [hidx]
  · unfold processProject insertedRows
    cases hc : env.cloneOk with
    | false =>
      cases hr : env.readResult with
      | error e => simp [cloneRepo, hc, hr]
      | ok docs => simp [cloneRepo, hc, hr]
    | true =>
      cases hr : env.readResult with
      | error e => simp [cloneRepo, hc, hr]
      | ok docs =>
        have hdb : (indexDocuments env pid docs st.db).1 =
            st.db ++ keptRowsUntil env pid (batchesOf 10 docs) :=
          runBatches_db_eq env pid (batchesOf 10 docs) st.db
        cases hidx : (indexDocuments env pid docs st.db).2 with
        | none => simp [cloneRepo, hc, hr, hidx, hdb]
        | some e => simp [cloneRepo, hc, hr, hidx, hdb]

theorem processProject_error_no_rollback_wit :
    ((processProject envLateEmbedFail "pr" stEmpty).status = "ERROR" ∧
      (processProject envLateEmbedFail "pr" stEmpty).db =
        stEmpty.db ++ insertedRows envLateEmbedFail "pr" ∧
      ∀ r ∈ insertedRows envLateEmbedFail "pr", r.projectId = "pr") ∧
      insertedRows envLateEmbedFail "pr" ≠ [] :=
  ⟨processProject_error_no_rollback envLateEmbedFail "pr" stEmpty (by decide),
   by decide⟩

theorem rowsOfChunks_ok (env : IndexerEnv) (pid : String)
    (hembed : ∀ cs, ∃ v, env.embed cs = .ok v) :
    ∀ chs, ∃ rs, rowsOfChunks env pid chs = .ok rs := by
  intro chs
  induction chs with
  | nil => exact ⟨[], rfl⟩
  | cons ch rest ih =>
    obtain ⟨v, hv⟩ := hembed ch.content
    obtain ⟨rs, hrs⟩ := ih
    exact ⟨⟨pid, ch.content, ch.path, v⟩ :: rs,
      by simp only [rowsOfChunks, hv, hrs]⟩

theorem batchRows_ok (env : IndexerEnv) (pid : String)
    (hembed : ∀ cs, ∃ v, env.embed cs = .ok v) :
    ∀ b, ∃ rows, batchRows env pid b = .ok rows := by
  intro b
  induction b with
  | nil => exact ⟨[], rfl⟩
  | cons d ds ih =>
    obtain ⟨rs, h1⟩ := rowsOfChunks_ok env pid hembed (splitDocument d)
    obtain ⟨rest, h2⟩ := ih
    exact ⟨rs ++ rest, by simp only [batchRows, h1, h2]⟩

theorem runBatches_kept (env : IndexerEnv) (pid : String)
    (hembed : ∀ cs, ∃ v, env.embed cs = .ok v) :
    ∀ bs db, runBatches env pid bs db =
      (db ++ keptRows env pid bs, none) := by
  intro bs
  induction bs with
  | nil => intro db; simp [runBatches, keptRows]
  | cons b rest ih =>
    intro db
    obtain ⟨rows, hb⟩ := batchRows_ok env pid hembed b
    by_cases hlen : rows.length > 0
    · by_cases hins : env.insertOk rows = true
      · simp only [runBatches, hb, if_pos hlen, if_pos hins, ih,
          keptRows, List.append_assoc]
      · simp only [runBatches, hb, if_pos hlen, if_neg hins, ih, keptRows]
        simp
    · simp only [runBatches, hb, if_neg hlen, ih, keptRows]
      simp

/-- C3 (amended): when every embedding call succeeds, a failing bulk insert
loses only its own batch's rows — the run continues through the remaining
batches and the project still ends `READY`, its table extended by exactly
the successfully inserted batches.  (A failing *embedding* call instead
aborts the whole run — see the counterexample.) -/
theorem indexDocuments_insert_failure_tolerated (env : IndexerEnv)
    (pid : String) (st : ProjState) (docs : List SrcDoc)
    (hclone : env.cloneOk = true) (hread : env.readResult = .ok docs)
    (hembed : ∀ cs, ∃ v, env.embed cs = .ok v) :
    (processProject env pid st).status = "READY" ∧
      (processProject env pid st).db =
        st.db ++ keptRows env pid (batchesOf 10 docs) := by
  have hrun := runBatches_kept env pid hembed (batchesOf 10 docs) st.db
  unfold processProject
  simp only [cloneRepo, hclone, hread]
  simp [indexDocuments, hrun]

theorem indexDocuments_insert_failure_tolerated_wit :
    (processProject envInsertFail "pr" stEmpty).status = "READY" ∧
      (processProject envInsertFail "pr" stEmpty).db =
        stEmpty.db ++ keptRows envInsertFail "pr" (batchesOf 10 docsTwoBatches) :=
  indexDocuments_insert_failure_tolerated envInsertFail "pr" stEmpty
    docsTwoBatches rfl rfl (fun _ => ⟨[2], rfl⟩)

/-- C3 counterexample: in `envEmbedFail` only the very first chunk's
embedding call fails, yet the exception aborts the whole run inside
`indexDocuments` — the second batch (which would embed and insert fine) is
never processed, nothing is inserted, and the status becomes `ERROR`, not
`READY`. -/
theorem indexDocuments_embed_failure_aborts_cex :
    (processProject envEmbedFail "pr" stEmpty).status = "ERROR" ∧
      (processProject envEmbedFail "pr" stEmpty).db = [] := by
  decide

/-- C7 counterexample: a run that clones successfully and then fails while
reading files ends with the snapshot still on disk — the temporary snapshot
is *not* released on the failure exit path. -/
theorem snapshot_left_on_failure_cex :
    (processProject envReadFail "pr" stEmpty).status = "ERROR" ∧
      (processProject envReadFail "pr" stEmpty).disk = ["pr"] := by
  decide

theorem mem_rmSnap {q pid : String} {l : List String} :
    q ∈ rmSnap pid l ↔ q ∈ l ∧ q ≠ pid := by
  simp [rmSnap, List.mem_filter]

theorem count_rmSnap (pid : String) (l : List String) :
    (rmSnap pid l).count pid = 0 := by
  refine List.count_eq_zero.mpr (fun h => ?_)
  exact (mem_rmSnap.mp h).2 rfl

/-- C7 (amended): the snapshot is released on the success exit path, and —
because every run for a project reuses the fixed path
`temp_repos/<projectId>` and `cloneRepo` first removes whatever is there —
at most one snapshot per project ever exists and other projects' snapshots
are untouched; but a run that fails after cloning leaves its snapshot on
disk (released only by the next run's clean-up step). -/
theorem snapshot_cleanup_amended (env : IndexerEnv) (pid : String)
    (st : ProjState) :
    ((processProject env pid st).status = "READY" →
      pid ∉ (processProject env pid st).disk) ∧
      (processProject env pid st).disk.count pid ≤ 1 ∧
      (∀ q, q ≠ pid →
        (q ∈ (processProject env pid st).disk ↔ q ∈ st.disk)) := by
  have hnotmem : ∀ l : List String, pid ∉ rmSnap pid l := by
    intro l h
    exact (mem_rmSnap.mp h).2 rfl
  have hmem : ∀ (q : String) (l : List String), q ≠ pid →
      (q ∈ rmSnap pid l ↔ q ∈ l) := by
    intro q l hq
    rw [mem_rmSnap]
    simp [hq]
  have hgoal : ∀ d : List String,
      ((processProject env pid st).disk = d) →
      (("READY" : String) = (processProject env pid st).status →
        pid ∉ d) →
      d.count pid ≤ 1 →
      (∀ q, q ≠ pid → (q ∈ d ↔ q ∈ st.disk)) →
      ((processProject env pid st).status = "READY" →
        pid ∉ (processProject env pid st).disk) ∧
        (processProject env pid st).disk.count pid ≤ 1 ∧
        (∀ q, q ≠ pid →
          (q ∈ (processProject env pid st).disk ↔ q ∈ st.disk)) := by
    intro d hd h1 h2 h3
    rw [hd]
    exact ⟨fun h => h1 h.symm, h2, h3⟩
  cases hc : env.cloneOk with
  | false =>
    have hps : processProject env pid st =
        { st with disk := rmSnap pid st.disk, status := "ERROR" } := by
      simp [processProject, cloneRepo, hc]
    refine hgoal (rmSnap pid st.disk) (by rw [hps]) ?_ ?_ ?_
    · rw [hps]; intro h; simp at h
    · simpa [rmSnap] using Nat.le_of_eq (count_rmSnap pid st.disk) |>.trans
        (by omega)
    · intro q hq; exact hmem q st.disk hq
  | true =>
    cases hr : env.readResult with
    | error e =>
      have hps : processProject env pid st =
          { st with disk := rmSnap pid st.disk ++ [pid], status := "ERROR" } := by
        simp [processProject, cloneRepo, hc, hr]
      refine hgoal (rmSnap pid st.disk ++ [pid]) (by rw [hps]) ?_ ?_ ?_
      · rw [hps]; intro h; simp at h
      · simp [List.count_append, count_rmSnap]
      · intro q hq
        simp only [List.mem_append, List.mem_singleton]
        rw [hmem q st.disk hq]
        simp [hq]
    | ok docs =>
      cases hidx : (indexDocuments env pid docs st.db).2 with
      | some e =>
        have hps : processProject env pid st =
            { db := (indexDocuments env pid docs st.db).1, status := "ERROR",
              lastIndexed := st.lastIndexed,
              disk := rmSnap pid st.disk ++ [pid] } := by
          simp [processProject, cloneRepo, hc, hr, hidx]
        refine hgoal (rmSnap pid st.disk ++ [pid]) (by rw [hps]) ?_ ?_ ?_
        · rw [hps]; intro h; simp at h
        · simp [List.count_append, count_rmSnap]
        · intro q hq
          simp only [List.mem_append, List.mem_singleton]
          rw [hmem q st.disk hq]
          simp [hq]
      | none =>
        have hps : processProject env pid st =
            { db := (indexDocuments env pid docs st.db).1, status := "READY",
              lastIndexed := true,
              disk := rmSnap pid (rmSnap pid st.disk ++ [pid]) } := by
          simp [processProject, cloneRepo, hc, hr, hidx]
        refine hgoal (rmSnap pid (rmSnap pid st.disk ++ [pid])) (by rw [hps])
          ?_ ?_ ?_
        · intro _; exact hnotmem _
        · exact Nat.le_of_eq (count_rmSnap pid _) |>.trans (by omega)
        · intro q hq
          rw [hmem q _ hq]
          simp only [List.mem_append, List.mem_singleton]
          rw [hmem q st.disk hq]
          simp [hq]

/-- C5: `syncProject` verifies ownership first (it is the first observable
step, and nothing happens when the check fails); when the caller owns the
project, the wipe of the project's `documents` rows happens strictly before
the ingestion run is started (and ingestion is the only step that inserts),
so the final table holds the surviving rows of *other* projects plus only
rows this run inserted — at most one generation for the project. -/
theorem syncProject_wipe_before_insert (env : SyncEnv) (ienv : IndexerEnv)
    (pid : String) (st : ProjState) :
    (syncProject env ienv pid st).1.head? = some SyncEvent.verifyOwner ∧
      (env.ownerProject = none →
        (syncProject env ienv pid st).2 = st ∧
          (syncProject env ienv pid st).1 =
            [SyncEvent.verifyOwner, SyncEvent.respond404]) ∧
      (env.ownerProject ≠ none →
        (∃ l₁, ((syncProject env ienv pid st).1 = l₁ ∨
            (syncProject env ienv pid st).1 =
              l₁ ++ [SyncEvent.runIngestion pid]) ∧
          SyncEvent.wipeDocs pid ∈ l₁ ∧
          SyncEvent.runIngestion pid ∉ l₁) ∧
        ∃ new, (syncProject env ienv pid st).2.db =
            wipeProjectRows pid st.db ++ new ∧
          ∀ r ∈ new, r.projectId = pid) := by
  cases hown : env.ownerProject with
  | none =>
    have hsync : syncProject env ienv pid st =
        ([SyncEvent.verifyOwner, SyncEvent.respond404], st) := by
      simp only [syncProject, hown]
    rw [hsync]
    exact ⟨rfl, fun _ => ⟨rfl, rfl⟩, fun h => absurd rfl h⟩
  | some u =>
    cases htok : env.githubToken with
    | none =>
      have hsync : syncProject env ienv pid st =
          ([SyncEvent.verifyOwner, SyncEvent.wipeDocs pid,
            SyncEvent.setIndexing pid, SyncEvent.respondOk,
            SyncEvent.fetchToken],
           { db := wipeProjectRows pid st.db, status := "INDEXING",
             lastIndexed := true, disk := st.disk }) := by
        simp only [syncProject, hown, htok]
      rw [hsync]
      refine ⟨rfl, fun h => absurd h (by simp [hown] at h ⊢), fun _ => ?_⟩
      refine ⟨⟨_, Or.inl rfl, by simp, by simp⟩, [], by simp, by simp⟩
    | some tok =>
      have hsync : syncProject env ienv pid st =
          ([SyncEvent.verifyOwner, SyncEvent.wipeDocs pid,
            SyncEvent.setIndexing pid, SyncEvent.respondOk,
            SyncEvent.fetchToken, SyncEvent.runIngestion pid],
           processProject ienv pid
             { db := wipeProjectRows pid st.db, status := "INDEXING",
               lastIndexed := true, disk := st.disk }) := by
        simp only [syncProject, hown, htok]
      rw [hsync]
      refine ⟨rfl, fun h => absurd h (by simp [hown] at h ⊢), fun _ => ?_⟩
      obtain ⟨new, h1, h2⟩ := processProject_db ienv pid
        { db := wipeProjectRows pid st.db, status := "INDEXING",
          lastIndexed := true, disk := st.disk }
      exact ⟨⟨[SyncEvent.verifyOwner, SyncEvent.wipeDocs pid,
        SyncEvent.setIndexing pid, SyncEvent.respondOk, SyncEvent.fetchToken],
        Or.inr rfl, by simp, by simp⟩, new, h1, h2⟩

/-! ## Chat-request lemmas (C1, C2, C9, C10) -/

theorem filter_assistant_writeDeltas (l : List String) :
    (l.map ChatEvent.writeDelta).filter ChatEvent.isAssistantInsert = [] := by
  induction l with
  | nil => rfl
  | cons a as ih => simp [ChatEvent.isAssistantInsert, ih]

/-- C10: whenever the request carries an authenticated user id, the
usage-counter increment is the very first effect `chatWithProject` issues —
before the user message is persisted and before any embedding or generation
call — so the daily chat counter is incremented even when retrieval or
generation subsequently fails. -/
theorem chat_increment_first (env : ChatEnv) (uid : String)
    (h : env.userId = some uid) :
    (chatWithProject env).events.head? =
      some (ChatEvent.incrementCall uid) := by
  cases hinc : env.incrementOk with
  | false => simp [chatWithProject, h, hinc]
  | true =>
    cases hemb : env.embedOk with
    | false => simp [chatWithProject, h, hinc, hemb]
    | true =>
      cases hstr : env.streamErr with
      | false => simp [chatWithProject, h, hinc, hemb, hstr]
      | true => simp [chatWithProject, h, hinc, hemb, hstr]

theorem chat_increment_first_wit :
    (chatWithProject chatEnvAuthFail).events.head? =
      some (ChatEvent.incrementCall "u10") :=
  chat_increment_first chatEnvAuthFail "u10" rfl

/-- C9: against a project with zero indexed paths, the file-structure
summary placed in the prompt is the explicit `"(No files found)"` marker —
not the empty string — and the request still streams an answer (headers
sent, no 500, response ended; with a well-behaved stream the assistant
answer is persisted, too). -/
theorem chat_zero_paths_marker (env : ChatEnv)
    (hpaths : env.indexedPaths = [])
    (hinc : env.userId.isSome → env.incrementOk = true)
    (hembed : env.embedOk = true) :
    (chatWithProject env).fileStructure = some "(No files found)" ∧
      ("(No files found)" : String) ≠ "" ∧
      ChatEvent.respond500 ∉ (chatWithProject env).events ∧
      ChatEvent.sendHeaders (chatSources env) ∈ (chatWithProject env).events ∧
      ChatEvent.endResponse ∈ (chatWithProject env).events ∧
      (env.streamErr = false →
        (chatWithProject env).events.filter ChatEvent.isAssistantInsert ≠ []) := by
  cases hu : env.userId with
  | none =>
    cases hstr : env.streamErr <;>
      refine ⟨?_, by decide, ?_, ?_, ?_, ?_⟩ <;>
      simp [chatWithProject, hu, hpaths, hembed, hstr, chatSources,
        resolveContextDocs, filter_assistant_writeDeltas,
        List.filter_append, ChatEvent.isAssistantInsert]
  | some uid =>
    have hio : env.incrementOk = true := hinc (by simp [hu])
    cases hstr : env.streamErr <;>
      refine ⟨?_, by decide, ?_, ?_, ?_, ?_⟩ <;>
      simp [chatWithProject, hu, hio, hpaths, hembed, hstr, chatSources,
        resolveContextDocs, filter_assistant_writeDeltas,
        List.filter_append, ChatEvent.isAssistantInsert]

theorem chat_zero_paths_marker_wit :
    (chatWithProject chatEnvNoFiles).fileStructure =
      some "(No files found)" ∧
      ("(No files found)" : String) ≠ "" ∧
      ChatEvent.respond500 ∉ (chatWithProject chatEnvNoFiles).events ∧
      ChatEvent.sendHeaders (chatSources chatEnvNoFiles) ∈
        (chatWithProject chatEnvNoFiles).events ∧
      ChatEvent.endResponse ∈ (chatWithProject chatEnvNoFiles).events ∧
      (chatEnvNoFiles.streamErr = false →
        (chatWithProject chatEnvNoFiles).events.filter
          ChatEvent.isAssistantInsert ≠ []) :=
  chat_zero_paths_marker chatEnvNoFiles rfl (fun _ => rfl) rfl

/-- C1 counterexample: the stream forwards `"a"`, `"b"`, `"c"` and then the
provider raises; `chatWithProject` jumps to its `catch` (headers already
sent, so it just ends the response) and the assistant-message insert after
the loop never runs — *no* assistant message with content `"abc"` is
persisted; the partial answer is discarded. -/
theorem chat_stream_error_discards_partial_cex :
    (chatWithProject chatEnvStreamErr).events =
      [ChatEvent.insertUserMsg "P" "m", ChatEvent.sendHeaders [],
       ChatEvent.writeDelta "a", ChatEvent.writeDelta "b",
       ChatEvent.writeDelta "c", ChatEvent.endResponse] ∧
      (chatWithProject chatEnvStreamErr).events.filter
        ChatEvent.isAssistantInsert = [] := by
  decide

/-- C1 (amended): when the generation stream ends *normally*, exactly one
assistant message is persisted, whose content is the concatenation of the
forwarded (non-empty) deltas, together with the provenance path list; but
when the provider raises after some deltas were forwarded, the `catch`
block only ends the response — no assistant message is persisted and the
partial answer is discarded. -/
theorem chat_stream_persist_amended (env : ChatEnv)
    (hinc : env.userId.isSome → env.incrementOk = true)
    (hembed : env.embedOk = true) :
    (env.streamErr = false →
        (chatWithProject env).events.filter ChatEvent.isAssistantInsert =
          [ChatEvent.insertAssistantMsg env.projectId
            (String.join (env.streamDeltas.filter (fun t => t ≠ "")))
            (chatSources env)]) ∧
      (env.streamErr = true →
        (chatWithProject env).events.filter ChatEvent.isAssistantInsert
          = []) := by
  cases hu : env.userId with
  | none =>
    cases hstr : env.streamErr <;>
      refine ⟨?_, ?_⟩ <;>
      simp [chatWithProject, hu, hembed, hstr, chatSources,
        resolveContextDocs, filter_assistant_writeDeltas,
        List.filter_append, ChatEvent.isAssistantInsert]
  | some uid =>
    have hio : env.incrementOk = true := hinc (by simp [hu])
    cases hstr : env.streamErr <;>
      refine ⟨?_, ?_⟩ <;>
      simp [chatWithProject, hu, hio, hembed, hstr, chatSources,
        resolveContextDocs, filter_assistant_writeDeltas,
        List.filter_append, ChatEvent.isAssistantInsert]

theorem chat_stream_persist_amended_wit :
    (chatWithProject chatEnvStreamOk).events.filter
        ChatEvent.isAssistantInsert =
      [ChatEvent.insertAssistantMsg chatEnvStreamOk.projectId
        (String.join (chatEnvStreamOk.streamDeltas.filter (fun t => t ≠ "")))
        (chatSources chatEnvStreamOk)] :=
  (chat_stream_persist_amended chatEnvStreamOk (fun _ => rfl) rfl).1 rfl

theorem any_path_iff (m : List Doc) (p : String) :
    m.any (fun e => e.path = p) = true ↔ p ∈ m.map Doc.path := by
  simp only [List.any_eq_true, List.mem_map, decide_eq_true_eq]

theorem docsSet_paths_mem {m : List Doc} {d : Doc}
    (h : m.any (fun e => e.path = d.path) = true) :
    (docsSet m d).map Doc.path = m.map Doc.path := by
  simp only [docsSet, if_pos h, List.map_map]
  refine List.map_congr_left (fun e he => ?_)
  by_cases hp : e.path = d.path
  · simp [hp]
  · simp [hp]

theorem docsSet_paths_notmem {m : List Doc} {d : Doc}
    (h : ¬m.any (fun e => e.path = d.path) = true) :
    (docsSet m d).map Doc.path = m.map Doc.path ++ [d.path] := by
  simp only [docsSet, if_neg h, List.map_append, List.map_cons, List.map_nil]

theorem lastWith_concat (p : String) (l : List Doc) (d : Doc) :
    lastWith p (l ++ [d]) = if d.path = p then some d else lastWith p l := by
  unfold lastWith
  rw [List.filter_append]
  by_cases hd : d.path = p
  · simp [hd]
  · simp [hd]

theorem uniqueDocsOf_concat (l : List Doc) (d : Doc) :
    uniqueDocsOf (l ++ [d]) = docsSet (uniqueDocsOf l) d := by
  simp [uniqueDocsOf, List.foldl_append]

theorem uniqueDocsOf_spec (l : List Doc) :
    ((uniqueDocsOf l).map Doc.path).Nodup ∧
      (∀ d ∈ l, d.path ∈ (uniqueDocsOf l).map Doc.path) ∧
      (∀ e ∈ uniqueDocsOf l, lastWith e.path l = some e) := by
  induction l using List.reverseRecOn with
  | nil => simp [uniqueDocsOf]
  | append_singleton l d ih =>
    obtain ⟨ih1, ih2, ih3⟩ := ih
    rw [uniqueDocsOf_concat]
    by_cases hmem : (uniqueDocsOf l).any (fun e => e.path = d.path) = true
    · have hpaths := docsSet_paths_mem hmem
      refine ⟨hpaths ▸ ih1, ?_, ?_⟩
      · intro x hx
        rw [hpaths]
        rcases List.mem_append.mp hx with hx | hx
        · exact ih2 x hx
        · rw [List.mem_singleton.mp hx]
          exact (any_path_iff _ _).mp hmem
      · intro e he
        simp only [docsSet, if_pos hmem, List.mem_map] at he
        obtain ⟨x, hx, hrepl⟩ := he
        by_cases hxp : x.path = d.path
        · rw [if_pos hxp] at hrepl
          subst hrepl
          rw [lastWith_concat, if_pos rfl]
        · rw [if_neg hxp] at hrepl
          subst hrepl
          rw [lastWith_concat, if_neg (fun hc => hxp hc.symm)]
          exact ih3 x hx
    · have hpaths := docsSet_paths_notmem hmem
      have hdnot : d.path ∉ (uniqueDocsOf l).map Doc.path := by
        intro hc
        exact hmem ((any_path_iff _ _).mpr hc)
      refine ⟨?_, ?_, ?_⟩
      · rw [hpaths]
        simp only [List.nodup_append, List.nodup_cons, List.not_mem_nil,
          not_false_iff, List.nodup_nil, and_true, true_and]
        constructor
        · exact ih1
        · intro a ha
          simp only [List.mem_singleton]
          intro hc
          subst hc
          exact hdnot ha
      · intro x hx
        rw [hpaths]
        rcases List.mem_append.mp hx with hx | hx
        · exact List.mem_append_left _ (ih2 x hx)
        · rw [List.mem_singleton.mp hx]
          exact List.mem_append_right _ (List.mem_singleton_self _)
      · intro e he
        simp only [docsSet, if_neg hmem] at he
        rcases List.mem_append.mp he with he | he
        · have hep : e.path ≠ d.path := by
            intro hc
            exact hdnot (hc ▸ List.mem_map_of_mem Doc.path he)
          rw [lastWith_concat, if_neg (fun hc => hep hc.symm)]
          exact ih3 e he
        · rw [List.mem_singleton.mp he]
          rw [lastWith_concat, if_pos rfl]

theorem lastWith_append_right {p : String} (l₁ l₂ : List Doc)
    (h : p ∈ l₂.map Doc.path) :
    lastWith p (l₁ ++ l₂) = lastWith p l₂ := by
  unfold lastWith
  rw [List.filter_append]
  have hne : l₂.filter (fun d => d.path = p) ≠ [] := by
    obtain ⟨d, hd, hdp⟩ := List.mem_map.mp h
    intro hc
    have : d ∈ l₂.filter (fun d => d.path = p) :=
      List.mem_filter.mpr ⟨hd, by simp [hdp]⟩
    rw [hc] at this
    cases this
  exact List.getLast?_append_of_ne_nil _ hne

theorem lastWith_mem {p : String} {l : List Doc} {d : Doc}
    (h : lastWith p l = some d) : d ∈ l := by
  unfold lastWith at h
  exact List.mem_of_mem_filter (List.mem_of_getLast?_eq_some h)

/-- C2 counterexample: with the explicit lookup returning `src/a.ts` with
content `"E"` and the similarity search returning `src/a.ts` with content
`"V"` (plus `src/c.ts`), `chatWithProject`'s merge keeps each path once but
keeps the *similarity-search* copy `"V"` for `src/a.ts` — the explicitly
fetched content `"E"` is overwritten, contrary to the claim. -/
theorem context_merge_explicit_overridden_cex :
    uniqueDocsOf ([⟨"src/a.ts", "E"⟩] ++ [⟨"src/a.ts", "V"⟩, ⟨"src/c.ts", "W"⟩]) =
      [⟨"src/a.ts", "V"⟩, ⟨"src/c.ts", "W"⟩] ∧
      (⟨"src/a.ts", "E"⟩ : Doc) ∉
        uniqueDocsOf ([⟨"src/a.ts", "E"⟩] ++ [⟨"src/a.ts", "V"⟩, ⟨"src/c.ts", "W"⟩]) := by
  decide

/-- C2 (amended): the resolved context contains every path of the explicit
and similarity results exactly once, but the merge is last-seen-wins over
`explicitDocs ++ vectorDocs` — so when a path occurs in both, the copy kept
is the *similarity-search* one (the last occurrence), not the explicit
lookup's. -/
theorem context_merge_dedup_amended (env : ChatEnv) :
    ((resolveContextDocs env).map Doc.path).Nodup ∧
      (∀ d ∈ explicitDocsOf env ++ env.vectorDocs,
        d.path ∈ (resolveContextDocs env).map Doc.path) ∧
      (∀ e ∈ resolveContextDocs env,
        lastWith e.path (explicitDocsOf env ++ env.vectorDocs) = some e) ∧
      (∀ e ∈ resolveContextDocs env,
        e.path ∈ env.vectorDocs.map Doc.path →
          lastWith e.path env.vectorDocs = some e ∧ e ∈ env.vectorDocs) := by
  obtain ⟨h1, h2, h3⟩ := uniqueDocsOf_spec (explicitDocsOf env ++ env.vectorDocs)
  refine ⟨h1, h2, h3, fun e he hv => ?_⟩
  have := h3 e he
  rw [lastWith_append_right _ _ hv] at this
  exact ⟨this, lastWith_mem this⟩

/-! ## File-tree lemmas (C8) -/

theorem clistLE_total : ∀ a b : List Char,
    clistLE a b = true ∨ clistLE b a = true := by
  intro a
  induction a with
  | nil => intro b; left; rfl
  | cons x xs ih =>
    intro b
    cases b with
    | nil => right; rfl
    | cons y ys =>
      by_cases h1 : x.toNat < y.toNat
      · left; simp [clistLE, h1]
      · by_cases h2 : y.toNat < x.toNat
        · right; simp [clistLE, h2]
        · have hxy : ¬x.toNat < y.toNat := h1
          rcases ih ys with h | h
          · left; simp [clistLE, h1, h2, h]
          · right; simp [clistLE, h1, h2, hxy, h]

theorem clistLE_trans : ∀ a b c : List Char,
    clistLE a b = true → clistLE b c = true → clistLE a c = true := by
  intro a
  induction a with
  | nil => intro b c _ _; rfl
  | cons x xs ih =>
    intro b c hab hbc
    cases b with
    | nil => simp [clistLE] at hab
    | cons y ys =>
      cases c with
      | nil => simp [clistLE] at hbc
      | cons z zs =>
        simp only [clistLE] at hab hbc ⊢
        by_cases h1 : x.toNat < y.toNat
        · by_cases h2 : y.toNat < z.toNat
          · simp [show x.toNat < z.toNat by omega]
          · by_cases h3 : z.toNat < y.toNat
            · simp [h2, h3] at hbc
            · have : y.toNat = z.toNat := by omega
              simp [show x.toNat < z.toNat by omega]
        · by_cases h4 : y.toNat < x.toNat
          · simp [h1, h4] at hab
          · have hxy : x.toNat = y.toNat := by omega
            by_cases h2 : y.toNat < z.toNat
            · simp [show x.toNat < z.toNat by omega]
            · by_cases h3 : z.toNat < y.toNat
              · simp [h2, h3] at hbc
              · rw [if_neg h1, if_neg h4] at hab
                rw [if_neg h2, if_neg h3] at hbc
                rw [if_neg (show ¬x.toNat < z.toNat by omega),
                  if_neg (show ¬z.toNat < x.toNat by omega)]
                exact ih ys zs hab hbc

theorem clistLE_antisymm : ∀ a b : List Char,
    clistLE a b = true → clistLE b a = true → a = b := by
  intro a
  induction a with
  | nil =>
    intro b _ hba
    cases b with
    | nil => rfl
    | cons y ys => simp [clistLE] at hba
  | cons x xs ih =>
    intro b hab hba
    cases b with
    | nil => simp [clistLE] at hab
    | cons y ys =>
      simp only [clistLE] at hab hba
      by_cases h1 : x.toNat < y.toNat
      · rw [if_neg (by omega), if_pos (by omega)] at hba
        cases hba
      · by_cases h2 : y.toNat < x.toNat
        · rw [if_neg (by omega), if_pos (by omega)] at hab
          cases hab
        · have hn : x.toNat = y.toNat := by omega
          have hx : x = y := Char.ext (UInt32.ext hn)
          rw [if_neg h1, if_neg h2] at hab
          rw [if_neg h2, if_neg h1] at hba
          rw [hx, ih ys hab hba]

theorem strLE_total : ∀ a b : String, strLE a b ∨ strLE b a := by
  intro a b
  exact clistLE_total a.data b.data

theorem strLE_trans : ∀ a b c : String, strLE a b → strLE b c → strLE a c := by
  intro a b c
  exact clistLE_trans a.data b.data c.data

theorem strLE_antisymm : ∀ a b : String, strLE a b → strLE b a → a = b := by
  intro a b hab hba
  exact String.ext (clistLE_antisymm a.data b.data hab hba)

instance : IsTotal (String × FTree) pairLE :=
  ⟨fun a b => strLE_total a.1 b.1⟩

instance : IsTrans (String × FTree) pairLE :=
  ⟨fun a b c => strLE_trans a.1 b.1 c.1⟩

theorem sortPairs_sorted (cs : List (String × FTree)) :
    List.Sorted pairLE (sortPairs cs) :=
  List.sorted_insertionSort pairLE cs

theorem sortPairs_perm (cs : List (String × FTree)) :
    (sortPairs cs).Perm cs :=
  List.perm_insertionSort pairLE cs

theorem nodupKeys_perm {cs ds : List (String × FTree)}
    (h : cs.Perm ds) (hnd : NodupKeys cs) : NodupKeys ds :=
  ((h.map Prod.fst).nodup_iff).mp hnd

theorem findChild_eq_none_iff {cs : List (String × FTree)} {k : String} :
    findChild cs k = none ↔ k ∉ keysOf cs := by
  induction cs with
  | nil => simp [findChild, keysOf]
  | cons p rest ih =>
    obtain ⟨k', t⟩ := p
    by_cases h : k' = k
    · subst h
      simp [findChild, keysOf]
    · simp only [findChild, if_neg h, keysOf, List.map_cons, List.mem_cons]
      rw [ih]
      unfold keysOf
      constructor
      · intro hnot hc
        rcases hc with hc | hc
        · exact h hc.symm
        · exact hnot hc
      · intro hnot hc
        exact hnot (Or.inr hc)

theorem findChild_some_mem {cs : List (String × FTree)} {k : String}
    {t : FTree} (h : findChild cs k = some t) : (k, t) ∈ cs := by
  induction cs with
  | nil => cases h
  | cons p rest ih =>
    obtain ⟨k', t'⟩ := p
    by_cases hk : k' = k
    · subst hk
      simp [findChild] at h
      subst h
      exact List.mem_cons_self _ _
    · simp only [findChild, if_neg hk] at h
      exact List.mem_cons_of_mem _ (ih h)

theorem mem_findChild_of_nodup {cs : List (String × FTree)} {k : String}
    {t : FTree} (hnd : NodupKeys cs) (h : (k, t) ∈ cs) :
    findChild cs k = some t := by
  induction cs with
  | nil => cases h
  | cons p rest ih =>
    obtain ⟨k', t'⟩ := p
    rcases List.mem_cons.mp h with h1 | h1
    · rw [Prod.mk.injEq] at h1
      obtain ⟨hk, ht⟩ := h1
      subst hk
      subst ht
      simp [findChild]
    · have hk : k' ≠ k := by
        intro hc
        subst hc
        have : k' ∈ keysOf rest := List.mem_map_of_mem Prod.fst h1
        unfold NodupKeys keysOf at hnd
        simp only [List.map_cons, List.nodup_cons] at hnd
        exact hnd.1 this
      simp only [findChild, if_neg hk]
      refine ih ?_ h1
      unfold NodupKeys keysOf at hnd ⊢
      simp only [List.map_cons, List.nodup_cons] at hnd
      exact hnd.2

theorem findChild_perm {cs ds : List (String × FTree)} (hnd : NodupKeys cs)
    (h : cs.Perm ds) (k : String) : findChild cs k = findChild ds k := by
  cases hf : findChild cs k with
  | none =>
    have hk := findChild_eq_none_iff.mp hf
    have : k ∉ keysOf ds := by
      intro hc
      exact hk ((h.map Prod.fst).mem_iff.mpr hc)
    exact (findChild_eq_none_iff.mpr this).symm
  | some t =>
    have hmem := findChild_some_mem hf
    exact (mem_findChild_of_nodup (nodupKeys_perm h hnd)
      (h.mem_iff.mp hmem)).symm

theorem find_sortedSet_self (cs : List (String × FTree)) (k : String)
    (v : FTree) : findChild (sortedSet cs k v) k = some v := by
  induction cs with
  | nil => simp [sortedSet, findChild]
  | cons p rest ih =>
    obtain ⟨k', t'⟩ := p
    by_cases h1 : k' = k
    · simp [sortedSet, h1, findChild]
    · by_cases h2 : strLE k k'
      · simp [sortedSet, h1, h2, findChild]
      · simp only [sortedSet, if_neg h1, if_neg h2]
        simp only [findChild, if_neg h1]
        exact ih

theorem find_sortedSet_ne {k q : String} (hne : k ≠ q)
    (cs : List (String × FTree)) (v : FTree) :
    findChild (sortedSet cs k v) q = findChild cs q := by
  induction cs with
  | nil => simp [sortedSet, findChild, hne]
  | cons p rest ih =>
    obtain ⟨k', t'⟩ := p
    by_cases h1 : k' = k
    · subst h1
      simp [sortedSet, findChild, hne]
    · by_cases h2 : strLE k k'
      · simp only [sortedSet, if_neg h1, if_pos h2]
        simp [findChild, hne]
      · simp only [sortedSet, if_neg h1, if_neg h2]
        by_cases h3 : k' = q
        · simp [findChild, h3]
        · simp only [findChild, if_neg h3]
          exact ih

theorem mem_sortedSet {x : String × FTree} {cs : List (String × FTree)}
    {k : String} {v : FTree} (h : x ∈ sortedSet cs k v) :
    x = (k, v) ∨ x ∈ cs := by
  induction cs with
  | nil => simp [sortedSet] at h; exact Or.inl h
  | cons p rest ih =>
    obtain ⟨k', t'⟩ := p
    by_cases h1 : k' = k
    · simp only [sortedSet, if_pos h1, List.mem_cons] at h
      rcases h with h | h
      · exact Or.inl h
      · exact Or.inr (List.mem_cons_of_mem _ h)
    · by_cases h2 : strLE k k'
      · simp only [sortedSet, if_neg h1, if_pos h2, List.mem_cons] at h
        rcases h with h | h | h
        · exact Or.inl h
        · exact Or.inr (List.mem_cons.mpr (Or.inl h))
        · exact Or.inr (List.mem_cons_of_mem _ h)
      · simp only [sortedSet, if_neg h1, if_neg h2, List.mem_cons] at h
        rcases h with h | h
        · exact Or.inr (List.mem_cons.mpr (Or.inl h))
        · rcases ih h with h | h
          · exact Or.inl h
          · exact Or.inr (List.mem_cons_of_mem _ h)

theorem sortedSet_sorted {cs : List (String × FTree)}
    (hs : List.Sorted pairLE cs) (k : String) (v : FTree) :
    List.Sorted pairLE (sortedSet cs k v) := by
  induction cs with
  | nil => simp [sortedSet]
  | cons p rest ih =>
    obtain ⟨k', t'⟩ := p
    rw [List.sorted_cons] at hs
    obtain ⟨hall, hrest⟩ := hs
    by_cases h1 : k' = k
    · subst h1
      have hset : sortedSet ((k', t') :: rest) k' v = (k', v) :: rest := by
        simp [sortedSet]
      rw [hset, List.sorted_cons]
      exact ⟨fun b hb => hall b hb, hrest⟩
    · by_cases h2 : strLE k k'
      · simp only [sortedSet, if_neg h1, if_pos h2]
        rw [List.sorted_cons]
        refine ⟨?_, List.sorted_cons.mpr ⟨hall, hrest⟩⟩
        intro b hb
        rcases List.mem_cons.mp hb with hb | hb
        · subst hb; exact h2
        · exact strLE_trans _ _ _ h2 (hall b hb)
      · simp only [sortedSet, if_neg h1, if_neg h2]
        rw [List.sorted_cons]
        refine ⟨?_, ih hrest⟩
        intro b hb
        rcases mem_sortedSet hb with hb | hb
        · subst hb
          rcases strLE_total k k' with h | h
          · exact absurd h h2
          · exact h
        · exact hall b hb

theorem keysOf_cons (p : String × FTree) (cs : List (String × FTree)) :
    keysOf (p :: cs) = p.1 :: keysOf cs := rfl

theorem nodup_sortedSet {cs : List (String × FTree)}
    (hs : List.Sorted pairLE cs) (hnd : NodupKeys cs) (k : String)
    (v : FTree) : NodupKeys (sortedSet cs k v) := by
  induction cs with
  | nil => simp [sortedSet, NodupKeys, keysOf]
  | cons p rest ih =>
    obtain ⟨k', t'⟩ := p
    rw [List.sorted_cons] at hs
    obtain ⟨hall, hrest⟩ := hs
    unfold NodupKeys at hnd
    rw [keysOf_cons, List.nodup_cons] at hnd
    obtain ⟨hk', hndrest⟩ := hnd
    by_cases h1 : k' = k
    · subst h1
      have hset : sortedSet ((k', t') :: rest) k' v = (k', v) :: rest := by
        simp [sortedSet]
      rw [hset]
      unfold NodupKeys
      rw [keysOf_cons, List.nodup_cons]
      exact ⟨hk', hndrest⟩
    · by_cases h2 : strLE k k'
      · simp only [sortedSet, if_neg h1, if_pos h2]
        unfold NodupKeys
        rw [keysOf_cons, keysOf_cons, List.nodup_cons, List.nodup_cons]
        refine ⟨?_, hk', hndrest⟩
        intro hc
        rcases List.mem_cons.mp hc with hc | hc
        · exact h1 hc.symm
        · obtain ⟨b, hb, hbk⟩ := List.mem_map.mp hc
          have hlt := hall b hb
          unfold pairLE at hlt
          rw [hbk] at hlt
          exact h1 (strLE_antisymm k' k hlt h2)
      · simp only [sortedSet, if_neg h1, if_neg h2]
        unfold NodupKeys
        rw [keysOf_cons, List.nodup_cons]
        refine ⟨?_, ih hrest hndrest⟩
        intro hc
        obtain ⟨b, hb, hbk⟩ := List.mem_map.mp hc
        rcases mem_sortedSet hb with hb' | hb'
        · rw [hb'] at hbk
          exact h1 hbk.symm
        · refine hk' ?_
          rw [← hbk]
          exact List.mem_map_of_mem Prod.fst hb'

theorem sortedSet_ext : ∀ {l₁ l₂ : List (String × FTree)},
    List.Sorted pairLE l₁ → List.Sorted pairLE l₂ →
    NodupKeys l₁ → NodupKeys l₂ →
    (∀ k, findChild l₁ k = findChild l₂ k) → l₁ = l₂ := by
  intro l₁
  induction l₁ with
  | nil =>
    intro l₂ _ _ _ _ hfind
    cases l₂ with
    | nil => rfl
    | cons p rest =>
      obtain ⟨k, t⟩ := p
      have := hfind k
      simp [findChild] at this
  | cons p r₁ ih =>
    intro l₂ hs₁ hs₂ hnd₁ hnd₂ hfind
    obtain ⟨k₁, t₁⟩ := p
    cases l₂ with
    | nil =>
      have := hfind k₁
      simp [findChild] at this
    | cons q r₂ =>
      obtain ⟨k₂, t₂⟩ := q
      have hk : k₁ = k₂ := by
        by_contra hne
        have h₁ : findChild ((k₂, t₂) :: r₂) k₁ = some t₁ := by
          rw [← hfind k₁]; simp [findChild]
        have h₂ : findChild ((k₁, t₁) :: r₁) k₂ = some t₂ := by
          rw [hfind k₂]; simp [findChild]
        have hm₁ : (k₁, t₁) ∈ r₂ := by
          have := findChild_some_mem h₁
          rcases List.mem_cons.mp this with hc | hc
          · rw [Prod.mk.injEq] at hc; exact absurd hc.1 hne
          · exact hc
        have hm₂ : (k₂, t₂) ∈ r₁ := by
          have := findChild_some_mem h₂
          rcases List.mem_cons.mp this with hc | hc
          · rw [Prod.mk.injEq] at hc; exact absurd hc.1.symm hne
          · exact hc
        have hle₁ : strLE k₁ k₂ :=
          List.rel_of_sorted_cons hs₁ (k₂, t₂) hm₂
        have hle₂ : strLE k₂ k₁ :=
          List.rel_of_sorted_cons hs₂ (k₁, t₁) hm₁
        exact hne (strLE_antisymm _ _ hle₁ hle₂)
      subst hk
      have ht : t₁ = t₂ := by
        have := hfind k₁
        simp [findChild] at this
        exact this
      subst ht
      have hnd₁' : NodupKeys r₁ := by
        unfold NodupKeys at hnd₁ ⊢
        rw [keysOf_cons, List.nodup_cons] at hnd₁
        exact hnd₁.2
      have hnd₂' : NodupKeys r₂ := by
        unfold NodupKeys at hnd₂ ⊢
        rw [keysOf_cons, List.nodup_cons] at hnd₂
        exact hnd₂.2
      have hk₁r₁ : k₁ ∉ keysOf r₁ := by
        unfold NodupKeys at hnd₁
        rw [keysOf_cons, List.nodup_cons] at hnd₁
        exact hnd₁.1
      have hk₁r₂ : k₁ ∉ keysOf r₂ := by
        unfold NodupKeys at hnd₂
        rw [keysOf_cons, List.nodup_cons] at hnd₂
        exact hnd₂.1
      congr 1
      refine ih hs₁.tail hs₂.tail hnd₁' hnd₂' (fun k => ?_)
      by_cases hkk : k = k₁
      · subst hkk
        rw [findChild_eq_none_iff.mpr hk₁r₁, findChild_eq_none_iff.mpr hk₁r₂]
      · have hne : k₁ ≠ k := fun hc => hkk hc.symm
        have := hfind k
        simp only [findChild, if_neg hne] at this
        exact this

theorem find_setChild_self (cs : List (String × FTree)) (k : String)
    (v : FTree) : findChild (setChild cs k v) k = some v := by
  induction cs with
  | nil => simp [setChild, findChild]
  | cons p rest ih =>
    obtain ⟨k', t'⟩ := p
    by_cases h : k' = k
    · simp [setChild, h, findChild]
    · simp only [setChild, if_neg h, findChild, if_neg h]
      exact ih

theorem find_setChild_ne {k q : String} (hne : k ≠ q)
    (cs : List (String × FTree)) (v : FTree) :
    findChild (setChild cs k v) q = findChild cs q := by
  induction cs with
  | nil => simp [setChild, findChild, hne]
  | cons p rest ih =>
    obtain ⟨k', t'⟩ := p
    by_cases h : k' = k
    · subst h
      simp [setChild, findChild, hne]
    · simp only [setChild, if_neg h]
      by_cases h2 : k' = q
      · simp [findChild, h2]
      · simp only [findChild, if_neg h2]
        exact ih

theorem mem_setChild {x : String × FTree} {cs : List (String × FTree)}
    {k : String} {v : FTree} (h : x ∈ setChild cs k v) :
    x = (k, v) ∨ x ∈ cs := by
  induction cs with
  | nil => simp [setChild] at h; exact Or.inl h
  | cons p rest ih =>
    obtain ⟨k', t'⟩ := p
    by_cases h1 : k' = k
    · simp only [setChild, if_pos h1, List.mem_cons] at h
      rcases h with h | h
      · exact Or.inl h
      · exact Or.inr (List.mem_cons_of_mem _ h)
    · simp only [setChild, if_neg h1, List.mem_cons] at h
      rcases h with h | h
      · exact Or.inr (List.mem_cons.mpr (Or.inl h))
      · rcases ih h with h | h
        · exact Or.inl h
        · exact Or.inr (List.mem_cons_of_mem _ h)

theorem keysOf_setChild_mem {cs : List (String × FTree)} {k : String}
    (v : FTree) (h : k ∈ keysOf cs) :
    keysOf (setChild cs k v) = keysOf cs := by
  induction cs with
  | nil => cases h
  | cons p rest ih =>
    obtain ⟨k', t'⟩ := p
    by_cases h1 : k' = k
    · subst h1
      simp [setChild, keysOf]
    · rw [keysOf_cons, List.mem_cons] at h
      rcases h with h | h
      · exact absurd h.symm h1
      · simp only [setChild, if_neg h1, keysOf_cons]
        rw [ih h]

theorem setChild_not_mem {cs : List (String × FTree)} {k : String}
    (v : FTree) (h : k ∉ keysOf cs) :
    setChild cs k v = cs ++ [(k, v)] := by
  induction cs with
  | nil => simp [setChild]
  | cons p rest ih =>
    obtain ⟨k', t'⟩ := p
    rw [keysOf_cons, List.mem_cons] at h
    push_neg at h
    have hne : ¬k' = k := fun hc => h.1 hc.symm
    simp only [setChild, if_neg hne]
    rw [ih h.2]
    simp

theorem nodup_setChild {cs : List (String × FTree)} (hnd : NodupKeys cs)
    (k : String) (v : FTree) : NodupKeys (setChild cs k v) := by
  by_cases h : k ∈ keysOf cs
  · unfold NodupKeys
    have := keysOf_setChild_mem v h
    unfold keysOf at this ⊢
    rw [this]
    exact hnd
  · rw [setChild_not_mem v h]
    unfold NodupKeys keysOf at hnd ⊢
    rw [List.map_append]
    simp only [List.map_cons, List.map_nil]
    rw [List.nodup_append]
    refine ⟨hnd, List.nodup_singleton _, ?_⟩
    intro a ha
    simp only [List.mem_singleton]
    intro hc
    subst hc
    exact h ha

theorem canonChildren_keys (cs : List (String × FTree)) :
    keysOf (canonChildren cs) = keysOf cs := by
  induction cs with
  | nil => rfl
  | cons p rest ih =>
    obtain ⟨k, t⟩ := p
    simp only [canonChildren, keysOf_cons]
    rw [ih]

theorem canonChildren_find (cs : List (String × FTree)) (k : String) :
    findChild (canonChildren cs) k = Option.map canonTree (findChild cs k) := by
  induction cs with
  | nil => rfl
  | cons p rest ih =>
    obtain ⟨k', t⟩ := p
    by_cases h : k' = k
    · simp [canonChildren, findChild, h]
    · simp only [canonChildren, findChild, if_neg h]
      exact ih

theorem canonChildren_setChild (cs : List (String × FTree)) (k : String)
    (v : FTree) :
    canonChildren (setChild cs k v) = setChild (canonChildren cs) k (canonTree v) := by
  induction cs with
  | nil => rfl
  | cons p rest ih =>
    obtain ⟨k', t⟩ := p
    by_cases h : k' = k
    · simp [setChild, canonChildren, h]
    · simp only [setChild, if_neg h, canonChildren]
      rw [ih]

theorem mem_canonChildren {x : String × FTree} {cs : List (String × FTree)}
    (h : x ∈ canonChildren cs) :
    ∃ p ∈ cs, x = (p.1, canonTree p.2) := by
  induction cs with
  | nil => cases h
  | cons p rest ih =>
    obtain ⟨k, t⟩ := p
    simp only [canonChildren, List.mem_cons] at h
    rcases h with h | h
    · exact ⟨(k, t), List.mem_cons_self _ _, h⟩
    · obtain ⟨q, hq, hx⟩ := ih h
      exact ⟨q, List.mem_cons_of_mem _ hq, hx⟩

theorem sortPairs_setChild {cs : List (String × FTree)} (hnd : NodupKeys cs)
    (k : String) (v : FTree) :
    sortPairs (setChild cs k v) = sortedSet (sortPairs cs) k v := by
  have hndS : NodupKeys (sortPairs cs) :=
    nodupKeys_perm (sortPairs_perm cs).symm hnd
  refine sortedSet_ext (sortPairs_sorted _)
    (sortedSet_sorted (sortPairs_sorted cs) k v)
    (nodupKeys_perm (sortPairs_perm _).symm (nodup_setChild hnd k v))
    (nodup_sortedSet (sortPairs_sorted cs) hndS k v)
    (fun q => ?_)
  have hperm₁ : findChild (sortPairs (setChild cs k v)) q =
      findChild (setChild cs k v) q :=
    findChild_perm (nodupKeys_perm (sortPairs_perm _).symm
      (nodup_setChild hnd k v)) (sortPairs_perm _) q
  have hperm₂ : findChild (sortPairs cs) q = findChild cs q :=
    findChild_perm hndS (sortPairs_perm _) q
  by_cases hq : k = q
  · subst hq
    rw [hperm₁, find_setChild_self, find_sortedSet_self]
  · rw [hperm₁, find_setChild_ne hq, find_sortedSet_ne hq, hperm₂]

theorem treeWF_nil : TreeWF (.node []) := by
  refine TreeWF.node ?_ ?_
  · simp [NodupKeys, keysOf]
  · simp

theorem treeWF_insertParts : ∀ (pp : List String) (t : FTree),
    TreeWF t → TreeWF (insertParts t pp) := by
  intro pp
  induction pp with
  | nil =>
    intro t h
    cases t with
    | node cs => exact h
  | cons p ps ih =>
    intro t hwf
    cases t with
    | node cs =>
      cases hwf with
      | node hnd hall =>
        have hsub : TreeWF ((findChild cs p).getD (.node [])) := by
          cases hf : findChild cs p with
          | none => exact treeWF_nil
          | some t₀ => exact hall (p, t₀) (findChild_some_mem hf)
        show TreeWF (.node (setChild cs p
          (insertParts ((findChild cs p).getD (.node [])) ps)))
        refine TreeWF.node (nodup_setChild hnd _ _) ?_
        intro x hx
        rcases mem_setChild hx with hx | hx
        · rw [hx]
          exact ih _ hsub
        · exact hall x hx

theorem treeWF_buildTree (ps : List String) : TreeWF (buildTree ps) := by
  have : ∀ (l : List String) (t : FTree), TreeWF t →
      TreeWF (l.foldl (fun t p => insertParts t (splitSlash p)) t) := by
    intro l
    induction l with
    | nil => intro t h; exact h
    | cons p rest ih =>
      intro t h
      exact ih _ (treeWF_insertParts (splitSlash p) t h)
  exact this ps (.node []) treeWF_nil

theorem nodupKeys_canonChildren {cs : List (String × FTree)}
    (hnd : NodupKeys cs) : NodupKeys (canonChildren cs) := by
  unfold NodupKeys
  unfold NodupKeys at hnd
  rw [show keysOf (canonChildren cs) = keysOf cs from canonChildren_keys cs]
  exact hnd

theorem canonical_canonTree : ∀ {t : FTree}, TreeWF t →
    Canonical (canonTree t) := by
  intro t hwf
  induction hwf with
  | node hnd hall ih =>
    rename_i cs
    show Canonical (.node (sortPairs (canonChildren cs)))
    refine Canonical.node (sortPairs_sorted _)
      (nodupKeys_perm (sortPairs_perm _).symm (nodupKeys_canonChildren hnd))
      ?_
    intro x hx
    have hx' : x ∈ canonChildren cs := (sortPairs_perm _).mem_iff.mp hx
    obtain ⟨q, hq, hxq⟩ := mem_canonChildren hx'
    rw [hxq]
    exact ih q hq

theorem canonTree_insertParts : ∀ (pp : List String) (t : FTree),
    TreeWF t → canonTree (insertParts t pp) = sInsert (canonTree t) pp := by
  intro pp
  induction pp with
  | nil =>
    intro t _
    cases t with
    | node cs => rfl
  | cons p ps ih =>
    intro t hwf
    cases t with
    | node cs =>
      cases hwf with
      | node hnd hall =>
        have hndc : NodupKeys (canonChildren cs) := nodupKeys_canonChildren hnd
        have hsub : TreeWF ((findChild cs p).getD (.node [])) := by
          cases hf : findChild cs p with
          | none => exact treeWF_nil
          | some t₀ => exact hall (p, t₀) (findChild_some_mem hf)
        show canonTree (.node (setChild cs p
            (insertParts ((findChild cs p).getD (.node [])) ps))) =
          sInsert (.node (sortPairs (canonChildren cs))) (p :: ps)
        have hL : canonTree (.node (setChild cs p
            (insertParts ((findChild cs p).getD (.node [])) ps))) =
            .node (sortedSet (sortPairs (canonChildren cs)) p
              (canonTree (insertParts ((findChild cs p).getD (.node [])) ps))) := by
          show FTree.node (sortPairs (canonChildren (setChild cs p _))) = _
          rw [canonChildren_setChild, sortPairs_setChild hndc]
        rw [hL]
        show _ = FTree.node (sortedSet (sortPairs (canonChildren cs)) p
          (sInsert ((findChild (sortPairs (canonChildren cs)) p).getD
            (.node [])) ps))
        have hfind : findChild (sortPairs (canonChildren cs)) p =
            Option.map canonTree (findChild cs p) := by
          rw [findChild_perm (nodupKeys_perm (sortPairs_perm _).symm hndc)
            (sortPairs_perm _) p, canonChildren_find]
        congr 1
        rw [ih _ hsub]
        congr 1
        rw [hfind]
        cases hf : findChild cs p with
        | none => rfl
        | some t₀ => rfl

theorem canonical_nil : Canonical (.node []) := by
  refine Canonical.node ?_ ?_ ?_
  · simp
  · simp [NodupKeys, keysOf]
  · simp

theorem sInsert_nil (t : FTree) : sInsert t [] = t := by
  cases t with
  | node cs => rfl

theorem sInsert_canonical : ∀ (pp : List String) (t : FTree),
    Canonical t → Canonical (sInsert t pp) := by
  intro pp
  induction pp with
  | nil =>
    intro t h
    rw [sInsert_nil]
    exact h
  | cons p ps ih =>
    intro t hc
    cases t with
    | node cs =>
      cases hc with
      | node hs hnd hall =>
        have hsub : Canonical ((findChild cs p).getD (.node [])) := by
          cases hf : findChild cs p with
          | none => exact canonical_nil
          | some t₀ => exact hall (p, t₀) (findChild_some_mem hf)
        show Canonical (.node (sortedSet cs p
          (sInsert ((findChild cs p).getD (.node [])) ps)))
        refine Canonical.node (sortedSet_sorted hs _ _)
          (nodup_sortedSet hs hnd _ _) ?_
        intro x hx
        rcases mem_sortedSet hx with hx | hx
        · rw [hx]
          exact ih _ hsub
        · exact hall x hx

theorem sortedSet_collapse {cs : List (String × FTree)}
    (hs : List.Sorted pairLE cs) (hnd : NodupKeys cs) (k : String)
    (v w : FTree) : sortedSet (sortedSet cs k v) k w = sortedSet cs k w := by
  refine sortedSet_ext
    (sortedSet_sorted (sortedSet_sorted hs k v) k w)
    (sortedSet_sorted hs k w)
    (nodup_sortedSet (sortedSet_sorted hs k v) (nodup_sortedSet hs hnd k v) k w)
    (nodup_sortedSet hs hnd k w)
    (fun r => ?_)
  by_cases hr : k = r
  · subst hr
    rw [find_sortedSet_self, find_sortedSet_self]
  · rw [find_sortedSet_ne hr, find_sortedSet_ne hr, find_sortedSet_ne hr]

theorem sortedSet_comm {cs : List (String × FTree)}
    (hs : List.Sorted pairLE cs) (hnd : NodupKeys cs) {p q : String}
    (hpq : p ≠ q) (v w : FTree) :
    sortedSet (sortedSet cs p v) q w = sortedSet (sortedSet cs q w) p v := by
  refine sortedSet_ext
    (sortedSet_sorted (sortedSet_sorted hs p v) q w)
    (sortedSet_sorted (sortedSet_sorted hs q w) p v)
    (nodup_sortedSet (sortedSet_sorted hs p v) (nodup_sortedSet hs hnd p v) q w)
    (nodup_sortedSet (sortedSet_sorted hs q w) (nodup_sortedSet hs hnd q w) p v)
    (fun r => ?_)
  by_cases hr1 : q = r
  · subst hr1
    rw [find_sortedSet_self, find_sortedSet_ne hpq, find_sortedSet_self]
  · rw [find_sortedSet_ne hr1]
    by_cases hr2 : p = r
    · subst hr2
      rw [find_sortedSet_self, find_sortedSet_self]
    · rw [find_sortedSet_ne hr2, find_sortedSet_ne hr2,
        find_sortedSet_ne hr1]

theorem sInsert_cons (cs : List (String × FTree)) (p : String)
    (ps : List String) :
    sInsert (.node cs) (p :: ps) =
      .node (sortedSet cs p (sInsert ((findChild cs p).getD (.node [])) ps)) :=
  rfl

theorem sInsert_comm : ∀ (a b : List String) (t : FTree), Canonical t →
    sInsert (sInsert t a) b = sInsert (sInsert t b) a := by
  intro a
  induction a with
  | nil => intro b t _; rw [sInsert_nil, sInsert_nil]
  | cons p ps ih =>
    intro b t hc
    cases b with
    | nil => rw [sInsert_nil, sInsert_nil]
    | cons q qs =>
      cases t with
      | node cs =>
        cases hc with
        | node hs hnd hall =>
          have hsub : ∀ r : String,
              Canonical ((findChild cs r).getD (.node [])) := by
            intro r
            cases hf : findChild cs r with
            | none => exact canonical_nil
            | some t₀ => exact hall (r, t₀) (findChild_some_mem hf)
          by_cases hpq : p = q
          · subst hpq
            rw [sInsert_cons, sInsert_cons, sInsert_cons, sInsert_cons]
            rw [find_sortedSet_self, find_sortedSet_self]
            simp only [Option.getD_some]
            rw [sortedSet_collapse hs hnd, sortedSet_collapse hs hnd]
            rw [ih qs _ (hsub p)]
          · rw [sInsert_cons, sInsert_cons, sInsert_cons, sInsert_cons]
            rw [find_sortedSet_ne (fun h => hpq h.symm),
              find_sortedSet_ne hpq]
            exact congrArg FTree.node (sortedSet_comm hs hnd hpq _ _)

theorem sInsert_idem : ∀ (a : List String) (t : FTree), Canonical t →
    sInsert (sInsert t a) a = sInsert t a := by
  intro a
  induction a with
  | nil => intro t _; rw [sInsert_nil, sInsert_nil]
  | cons p ps ih =>
    intro t hc
    cases t with
    | node cs =>
      cases hc with
      | node hs hnd hall =>
        have hsub : Canonical ((findChild cs p).getD (.node [])) := by
          cases hf : findChild cs p with
          | none => exact canonical_nil
          | some t₀ => exact hall (p, t₀) (findChild_some_mem hf)
        rw [sInsert_cons, sInsert_cons]
        rw [find_sortedSet_self]
        simp only [Option.getD_some]
        rw [ih _ hsub]
        rw [sortedSet_collapse hs hnd]

theorem foldl_sInsert_canonical : ∀ (l : List (List String)) (t : FTree),
    Canonical t → Canonical (List.foldl sInsert t l) := by
  intro l
  induction l with
  | nil => intro t h; exact h
  | cons a rest ih =>
    intro t h
    exact ih _ (sInsert_canonical a t h)

theorem foldl_sInsert_swap : ∀ (l : List (List String)) (a : List String)
    (t : FTree), Canonical t →
    List.foldl sInsert (sInsert t a) l = sInsert (List.foldl sInsert t l) a := by
  intro l
  induction l with
  | nil => intro a t _; rfl
  | cons b rest ih =>
    intro a t hc
    show List.foldl sInsert (sInsert (sInsert t a) b) rest = _
    rw [sInsert_comm a b t hc]
    rw [ih a (sInsert t b) (sInsert_canonical b t hc), List.foldl_cons]

theorem foldl_sInsert_absorb : ∀ (l : List (List String)) (a : List String)
    (t : FTree), Canonical t → a ∈ l →
    sInsert (List.foldl sInsert t l) a = List.foldl sInsert t l := by
  intro l
  induction l with
  | nil => intro a t _ h; cases h
  | cons b rest ih =>
    intro a t hc hmem
    rcases List.mem_cons.mp hmem with h | h
    · subst h
      show sInsert (List.foldl sInsert (sInsert t a) rest) a = _
      rw [foldl_sInsert_swap rest a t hc]
      rw [sInsert_idem a _ (foldl_sInsert_canonical rest t hc)]
      rw [List.foldl_cons, foldl_sInsert_swap rest a t hc]
    · exact ih a (sInsert t b) (sInsert_canonical b t hc) h

theorem foldl_sInsert_dedup : ∀ (l : List (List String)) (t : FTree),
    Canonical t → List.foldl sInsert t l = List.foldl sInsert t l.dedup := by
  intro l
  induction l with
  | nil => intro t _; rfl
  | cons a rest ih =>
    intro t hc
    by_cases h : a ∈ rest
    · rw [List.dedup_cons_of_mem h]
      show List.foldl sInsert (sInsert t a) rest = _
      rw [foldl_sInsert_swap rest a t hc]
      rw [foldl_sInsert_absorb rest a t hc h]
      exact ih t hc
    · rw [List.dedup_cons_of_not_mem h]
      show List.foldl sInsert (sInsert t a) rest =
        List.foldl sInsert (sInsert t a) rest.dedup
      exact ih (sInsert t a) (sInsert_canonical a t hc)

theorem foldl_sInsert_perm {l₁ l₂ : List (List String)} (h : l₁.Perm l₂) :
    ∀ t : FTree, Canonical t →
      List.foldl sInsert t l₁ = List.foldl sInsert t l₂ := by
  induction h with
  | nil => intro t _; rfl
  | cons x p ih =>
    intro t hc
    show List.foldl sInsert (sInsert t x) _ = _
    exact ih _ (sInsert_canonical x t hc)
  | swap x y l =>
    intro t hc
    show List.foldl sInsert (sInsert (sInsert t y) x) l =
      List.foldl sInsert (sInsert (sInsert t x) y) l
    rw [sInsert_comm y x t hc]
  | trans p₁ p₂ ih₁ ih₂ =>
    intro t hc
    rw [ih₁ t hc, ih₂ t hc]

theorem foldl_sInsert_congr {l₁ l₂ : List (List String)}
    (h : ∀ x, x ∈ l₁ ↔ x ∈ l₂) (t : FTree) (hc : Canonical t) :
    List.foldl sInsert t l₁ = List.foldl sInsert t l₂ := by
  rw [foldl_sInsert_dedup l₁ t hc, foldl_sInsert_dedup l₂ t hc]
  refine foldl_sInsert_perm ?_ t hc
  rw [List.perm_ext_iff_of_nodup (List.nodup_dedup l₁) (List.nodup_dedup l₂)]
  intro a
  rw [List.mem_dedup, List.mem_dedup]
  exact h a

theorem canonTree_node_nil : canonTree (.node []) = .node [] := by
  show FTree.node (sortPairs (canonChildren [])) = .node []
  simp [canonChildren, sortPairs, List.insertionSort]

theorem canonTree_foldl : ∀ (ps : List String) (t : FTree), TreeWF t →
    canonTree (ps.foldl (fun t p => insertParts t (splitSlash p)) t) =
      ps.foldl (fun t p => sInsert t (splitSlash p)) (canonTree t) := by
  intro ps
  induction ps with
  | nil => intro t _; rfl
  | cons p rest ih =>
    intro t hwf
    show canonTree (rest.foldl _ (insertParts t (splitSlash p))) = _
    rw [ih _ (treeWF_insertParts (splitSlash p) t hwf)]
    rw [canonTree_insertParts (splitSlash p) t hwf, List.foldl_cons]

theorem canonTree_buildTree_congr {ps qs : List String}
    (h : ∀ p, p ∈ ps ↔ p ∈ qs) :
    canonTree (buildTree ps) = canonTree (buildTree qs) := by
  unfold buildTree
  rw [canonTree_foldl ps _ treeWF_nil, canonTree_foldl qs _ treeWF_nil]
  rw [canonTree_node_nil]
  have hmap : ∀ l : List String,
      l.foldl (fun t p => sInsert t (splitSlash p)) (FTree.node []) =
        List.foldl sInsert (FTree.node []) (l.map splitSlash) := by
    intro l
    rw [List.foldl_map]
  rw [hmap ps, hmap qs]
  refine foldl_sInsert_congr ?_ _ canonical_nil
  intro x
  simp only [List.mem_map]
  constructor
  · rintro ⟨p, hp, hx⟩
    exact ⟨p, (h p).mp hp, hx⟩
  · rintro ⟨p, hp, hx⟩
    exact ⟨p, (h p).mpr hp, hx⟩

theorem renderKeys_nil (n i : Nat) (pre : String) :
    renderKeys [] n i pre = "" := by
  simp [renderKeys]

theorem renderKeys_cons (k : String) (t : FTree)
    (rest : List (String × FTree)) (n i : Nat) (pre : String) :
    renderKeys ((k, t) :: rest) n i pre =
      pre ++ (if i = n - 1 then "└── " else "├── ") ++ k ++ "\n" ++
        (if t.children.isEmpty then ""
         else buildString t (pre ++ (if i = n - 1 then "    " else "│   "))) ++
        renderKeys rest n (i + 1) pre := by
  simp [renderKeys]

theorem renderLast_nil (pre : String) : renderLast [] pre = "" := by
  simp [renderLast]

theorem renderLast_single (k : String) (t : FTree) (pre : String) :
    renderLast [(k, t)] pre =
      pre ++ "└── " ++ k ++ "\n" ++
        (if t.children.isEmpty then ""
         else buildStringLast t (pre ++ "    ")) := by
  simp [renderLast]

theorem renderLast_cons₂ (k k2 : String) (t t2 : FTree)
    (rest : List (String × FTree)) (pre : String) :
    renderLast ((k, t) :: (k2, t2) :: rest) pre =
      pre ++ "├── " ++ k ++ "\n" ++
        (if t.children.isEmpty then ""
         else buildStringLast t (pre ++ "│   ")) ++
        renderLast ((k2, t2) :: rest) pre := by
  simp [renderLast]

theorem buildString_node (cs : List (String × FTree)) (pre : String) :
    buildString (.node cs) pre = renderKeys cs cs.length 0 pre := by
  simp [buildString]

theorem buildStringLast_node (cs : List (String × FTree)) (pre : String) :
    buildStringLast (.node cs) pre = renderLast cs pre := by
  simp [buildStringLast]

theorem render_eq_aux : ∀ (n : Nat) (cs : List (String × FTree)),
    sizeOf cs ≤ n → ∀ (i : Nat) (pre : String),
    renderKeys cs (i + cs.length) i pre = renderLast cs pre := by
  intro n
  induction n with
  | zero =>
    intro cs hsize
    exfalso
    cases cs <;> simp at hsize
  | succ n ih =>
    intro cs hsize i pre
    match cs with
    | [] => rw [renderKeys_nil, renderLast_nil]
    | [(k, t)] =>
      rw [renderKeys_cons, renderKeys_nil, renderLast_single]
      have hif : i = i + List.length [(k, t)] - 1 := by simp
      rw [if_pos hif, if_pos hif]
      have hsub : (if t.children.isEmpty then ""
          else buildString t (pre ++ "    ")) =
          (if t.children.isEmpty then ""
          else buildStringLast t (pre ++ "    ")) := by
        by_cases hleaf : t.children.isEmpty
        · rw [if_pos hleaf, if_pos hleaf]
        · rw [if_neg hleaf, if_neg hleaf]
          cases t with
          | node cs' =>
            rw [buildString_node, buildStringLast_node]
            have hsz : sizeOf cs' ≤ n := by
              simp at hsize
              omega
            have := ih cs' hsz 0 (pre ++ "    ")
            rw [Nat.zero_add] at this
            exact this
      rw [hsub]
      simp
    | (k, t) :: (k2, t2) :: rest =>
      rw [renderKeys_cons, renderLast_cons₂]
      have hif : ¬i = i + List.length ((k, t) :: (k2, t2) :: rest) - 1 := by
        simp only [List.length_cons]
        omega
      rw [if_neg hif, if_neg hif]
      have hsub : (if t.children.isEmpty then ""
          else buildString t (pre ++ "│   ")) =
          (if t.children.isEmpty then ""
          else buildStringLast t (pre ++ "│   ")) := by
        by_cases hleaf : t.children.isEmpty
        · rw [if_pos hleaf, if_pos hleaf]
        · rw [if_neg hleaf, if_neg hleaf]
          cases t with
          | node cs' =>
            rw [buildString_node, buildStringLast_node]
            have hsz : sizeOf cs' ≤ n := by
              simp at hsize
              omega
            have := ih cs' hsz 0 (pre ++ "│   ")
            rw [Nat.zero_add] at this
            exact this
      rw [hsub]
      have harith : i + List.length ((k, t) :: (k2, t2) :: rest) =
          (i + 1) + List.length ((k2, t2) :: rest) := by
        simp only [List.length_cons]
        omega
      rw [harith]
      have hszrest : sizeOf ((k2, t2) :: rest) ≤ n := by
        simp at hsize ⊢
        omega
      rw [ih ((k2, t2) :: rest) hszrest (i + 1) pre]

theorem buildString_eq_buildStringLast (t : FTree) (pre : String) :
    buildString t pre = buildStringLast t pre := by
  cases t with
  | node cs =>
    rw [buildString_node, buildStringLast_node]
    have := render_eq_aux (sizeOf cs) cs (Nat.le_refl _) 0 pre
    rw [Nat.zero_add] at this
    exact this

/-- C8: `generateFileTree` is deterministic — (i) for a fixed *set* of
paths the rendered string is identical across any reordering or
duplication of the input list (hence also across repeated calls, the
function being pure); (ii) the rendered tree walks siblings at every level
in `Object.keys(...).sort()` order — sorted by the JS string comparator,
with no duplicate sibling names (`Canonical`); and (iii) the index-based
renderer agrees with the design note's description (`buildStringLast`):
every non-last child is printed with the `├── ` connector, the last child
with `└── `. -/
theorem generateFileTree_deterministic :
    (∀ ps qs : List String, (∀ p, p ∈ ps ↔ p ∈ qs) →
        generateFileTree ps = generateFileTree qs)
      ∧ (∀ ps : List String, Canonical (canonTree (buildTree ps)))
      ∧ (∀ (t : FTree) (pre : String),
          buildString t pre = buildStringLast t pre) := by
  refine ⟨?_, ?_, buildString_eq_buildStringLast⟩
  · intro ps qs h
    unfold generateFileTree
    rw [canonTree_buildTree_congr h]
  · intro ps
    exact canonical_canonTree (treeWF_buildTree ps)
